import Mathlib

/-!
Verification of the HCM-tools download orchestration engine.

This file gives a shallow embedding of the core modules of the repository

  * `hcm_tools/core/db.py`           — the SQLite-backed document ledger
  * `hcm_tools/core/retry.py`        — the exponential-backoff retry executor
  * `hcm_tools/core/rate_limiter.py` — the sliding-window rate limiter
  * `hcm_tools/core/downloader.py`   — the scrape coordinator and worker pool

and proves the testable properties stated in the design document about them.
Python dictionaries backed by SQL tables become association lists, SQL
`UPDATE ... WHERE id=?` becomes a map over the rows touching exactly the
matching ones, timestamps become opaque strings supplied by the caller, and
the asyncio worker pool becomes an explicit small-step transition system
whose steps are the await points of the worker coroutine.
-/

namespace HCM

/-! ## The document ledger (`hcm_tools/core/db.py`)

One row of the `documents` table.  Column defaults follow the
`CREATE TABLE` statement in `DownloadDB._create_tables`. -/

inductive DocStatus
  | pending
  | in_progress
  | completed
  | failed
deriving DecidableEq, Repr

structure DocRow where
  employee_name : String
  employee_id   : String
  doc_type      : String
  doc_date      : String
  listing_page  : Int
  row_index     : Int
  status        : DocStatus
  attempts      : Nat
  last_error    : Option String
  file_path     : Option String
  discovered_at : String
  completed_at  : Option String
deriving DecidableEq, Repr

/-- The two tables owned by `DownloadDB`: `documents` (keyed by `id`, the
primary key) and `run_state` (key/value pairs). -/
structure DownloadDB where
  documents : List (String × DocRow)
  run_state : List (String × String)
deriving DecidableEq, Repr

def emptyDB : DownloadDB := ⟨[], []⟩

/-- `SELECT * FROM documents WHERE id = docId` (primary-key lookup). -/
def lookupDoc (docs : List (String × DocRow)) (docId : String) : Option DocRow :=
  (docs.find? (fun p => p.1 == docId)).map (fun p => p.2)

/-- `DownloadDB.register_document`: `INSERT OR IGNORE INTO documents ...`.
The insert supplies the descriptive fields, the locator and `discovered_at`;
every other column takes its schema default (`status='pending'`,
`attempts=0`, `last_error`, `file_path`, `completed_at` NULL). -/
def register_document (db : DownloadDB)
    (docId employee_name employee_id doc_type doc_date : String)
    (listing_page row_index : Int) (now : String) : DownloadDB :=
  if (lookupDoc db.documents docId).isSome then db
  else
    { db with documents := db.documents ++
        [(docId,
          { employee_name := employee_name
            employee_id   := employee_id
            doc_type      := doc_type
            doc_date      := doc_date
            listing_page  := listing_page
            row_index     := row_index
            status        := DocStatus.pending
            attempts      := 0
            last_error    := none
            file_path     := none
            discovered_at := now
            completed_at  := none })] }

/-- `UPDATE documents SET ... WHERE id = docId`: rewrites exactly the rows
whose key matches, leaves every other row untouched. -/
def updateDoc (db : DownloadDB) (docId : String) (f : DocRow → DocRow) : DownloadDB :=
  { db with documents :=
      db.documents.map (fun p => if p.1 == docId then (p.1, f p.2) else p) }

/-- `DownloadDB.mark_in_progress`. -/
def mark_in_progress (db : DownloadDB) (docId : String) : DownloadDB :=
  updateDoc db docId (fun r =>
    { r with status := DocStatus.in_progress, attempts := r.attempts + 1 })

/-- `DownloadDB.mark_completed`. -/
def mark_completed (db : DownloadDB) (docId file_path now : String) : DownloadDB :=
  updateDoc db docId (fun r =>
    { r with status := DocStatus.completed
             file_path := some file_path
             completed_at := some now
             last_error := none })

/-- `DownloadDB.mark_failed`. -/
def mark_failed (db : DownloadDB) (docId error : String) : DownloadDB :=
  updateDoc db docId (fun r =>
    { r with status := DocStatus.failed, last_error := some error })

/-- `DownloadDB.is_completed`:
`SELECT 1 FROM documents WHERE id=? AND status='completed'`. -/
def is_completed (db : DownloadDB) (docId : String) : Bool :=
  db.documents.any (fun p => p.1 == docId && p.2.status == DocStatus.completed)

/-- `DownloadDB.get_attempts`: the row's count, 0 when unregistered. -/
def get_attempts (db : DownloadDB) (docId : String) : Nat :=
  match lookupDoc db.documents docId with
  | some r => r.attempts
  | none   => 0

/-- `DownloadDB.set_last_page`: `INSERT OR REPLACE INTO run_state`. -/
def set_last_page (db : DownloadDB) (page : Int) : DownloadDB :=
  { db with run_state :=
      ("last_page", toString page) ::
        db.run_state.filter (fun p => !(p.1 == "last_page")) }

/-- `DownloadDB.get_last_page`, defaulting to 1 when the key is absent.
Stored values always come from `str(page)` so the parse succeeds. -/
def get_last_page (db : DownloadDB) : Int :=
  match (db.run_state.find? (fun p => p.1 == "last_page")).map (fun p => p.2) with
  | some v => (v.toInt?).getD 1
  | none   => 1

/-- One call against the ledger, as issued by the coordinator and the
workers.  Used to state properties that hold after arbitrary operation
sequences. -/
inductive DBOp
  | register (docId employee_name employee_id doc_type doc_date : String)
      (listing_page row_index : Int) (now : String)
  | markInProgress (docId : String)
  | markCompleted (docId file_path now : String)
  | markFailed (docId error : String)
deriving DecidableEq, Repr

def applyOp (db : DownloadDB) : DBOp → DownloadDB
  | DBOp.register docId en ei dt dd lp ri now =>
      register_document db docId en ei dt dd lp ri now
  | DBOp.markInProgress docId => mark_in_progress db docId
  | DBOp.markCompleted docId fp now => mark_completed db docId fp now
  | DBOp.markFailed docId err => mark_failed db docId err

def applyOps (db : DownloadDB) : List DBOp → DownloadDB
  | [] => db
  | op :: ops => applyOps (applyOp db op) ops

/-- The ledger invariant claimed by the design document: a row carries a
completion timestamp exactly when its status is `completed`. -/
def completedAtInv (db : DownloadDB) : Prop :=
  ∀ p ∈ db.documents, (p.2.completed_at.isSome ↔ p.2.status = DocStatus.completed)

/-- Operation sequences as the orchestrator issues them: a worker re-checks
`is_completed` immediately before acting, so `mark_in_progress` and
`mark_failed` are only ever applied to ids that are not currently
`completed`. -/
def guardedOps (db : DownloadDB) : List DBOp → Prop
  | [] => True
  | op :: ops =>
      (match op with
       | DBOp.markInProgress docId => is_completed db docId = false
       | DBOp.markFailed docId _ => is_completed db docId = false
       | _ => True) ∧ guardedOps (applyOp db op) ops

/-! ## The retry executor (`hcm_tools/core/retry.py`)

`with_retry` calls an async operation up to `max_attempts` times, sleeping
an exponentially growing, capped, jittered delay between attempts.  The
operation is embedded as a function from the 1-based attempt number to an
`Except` outcome; `random.random()` for attempt `k` is embedded as an
oracle `jitF k` (the factor `0.5 + random.random()`, which lies in
`[0.5, 1.5)`).  The embedding additionally records how many times the
operation was invoked and the exact delays slept. -/

inductive RetryError (E : Type)
  | opError (e : E)
  | noAttempts
deriving DecidableEq, Repr

structure RetryResult (E T : Type) where
  invocations : Nat
  delays : List ℚ
  result : Except (RetryError E) T
deriving Repr

/-- `delay = min(base_delay * 2 ** (attempt - 1), max_delay)`, then
`delay *= 0.5 + random.random()` when jitter is on. -/
def retryDelay (base_delay max_delay : ℚ) (jitter : Bool) (jitF : Nat → ℚ)
    (attempt : Nat) : ℚ :=
  let d := min (base_delay * 2 ^ (attempt - 1)) max_delay
  if jitter then d * jitF attempt else d

/-- The `for attempt in range(1, max_attempts + 1)` loop of `with_retry`:
`attempt` is the current 1-based attempt number and `fuel` the number of
attempts still allowed (including the current one).  With no fuel the loop
body never runs and the initial `last_exc = RuntimeError("No attempts
made")` is raised. -/
def retryGo {E T : Type} (fn : Nat → Except E T) (base_delay max_delay : ℚ)
    (jitter : Bool) (jitF : Nat → ℚ) : Nat → Nat → RetryResult E T
  | _, 0 => ⟨0, [], Except.error RetryError.noAttempts⟩
  | attempt, fuel + 1 =>
    match fn attempt with
    | Except.ok v => ⟨1, [], Except.ok v⟩
    | Except.error e =>
      if fuel = 0 then ⟨1, [], Except.error (RetryError.opError e)⟩
      else
        let d := retryDelay base_delay max_delay jitter jitF attempt
        let rest := retryGo fn base_delay max_delay jitter jitF (attempt + 1) fuel
        ⟨rest.invocations + 1, d :: rest.delays, rest.result⟩

/-- `with_retry(fn, max_attempts=..., base_delay=..., max_delay=...,
jitter=...)`.  `max_attempts` is a Python `int`, so it may be non-positive;
`range(1, max_attempts + 1)` is then empty, which `Int.toNat` models. -/
def with_retry {E T : Type} (fn : Nat → Except E T) (max_attempts : Int)
    (base_delay max_delay : ℚ) (jitter : Bool) (jitF : Nat → ℚ) : RetryResult E T :=
  retryGo fn base_delay max_delay jitter jitF 1 max_attempts.toNat

/-! ## The rate limiter (`hcm_tools/core/rate_limiter.py`)

`RateLimiter.acquire` runs entirely under the instance's asyncio lock, so
the acquisitions of all workers are serialized; an execution of the system
is a sequence of `acquire` bodies.  Time is embedded as `ℚ`.  Each call is
described by two oracles: `r`, the monotonic-clock value when the body
starts (clamped below by the end of the previous body, since the clock is
monotone), and `slack ≥ 0`, the extra clock advance between the body's
first clock read and the final `time.monotonic()` appended to the deque
(covering both the duration of `asyncio.sleep` beyond the requested wait
and ordinary time passing). -/

/-- One execution of the body of `RateLimiter.acquire`, from the deque
`slots` at clock value `now`: drop expired timestamps, then either append
immediately or wait until the oldest slot leaves the window, drop it and
append the wake-up time.  Returns the new deque and the timestamp appended,
i.e. the time at which the acquisition completed. -/
def acquireStep (max_calls : Nat) (window : ℚ) (slots : List ℚ) (now slack : ℚ) :
    List ℚ × ℚ :=
  let pruned := slots.dropWhile (fun t => decide (t ≤ now - window))
  if max_calls ≤ pruned.length then
    match pruned with
    | [] =>
      let c := now + max slack 0
      ([c], c)
    | h :: rest =>
      let c := max now (h + window) + max slack 0
      (rest ++ [c], c)
  else
    let c := now + max slack 0
    (pruned ++ [c], c)

/-- A serialized history of `acquire` calls against one shared limiter,
returning the list of completion timestamps in order. -/
def rlRun (max_calls : Nat) (window : ℚ) (slots : List ℚ) (tprev : ℚ) :
    List (ℚ × ℚ) → List ℚ
  | [] => []
  | (r, slack) :: calls =>
    let now := max r tprev
    let step := acquireStep max_calls window slots now slack
    step.2 :: rlRun max_calls window step.1 step.2 calls

/-! ## The scrape coordinator (`BulkDownloader._scrape_all`)

The driver (a `BaseAdapter` on the main authenticated page) is embedded by
its observable behaviour: the listing is a list of pages, each a list of
`DocumentRecord`s; `has_next_page` is true while pages remain, and
`get_documents_on_page` returns the current page's records.  The
in-memory `DocumentRecord` dataclass (its `metadata` dictionary is unused
by the core and omitted): -/

structure DocumentRecord where
  id            : String
  employee_name : String
  employee_id   : String
  doc_type      : String
  doc_date      : String
  listing_page  : Int
  row_index     : Int
deriving DecidableEq, Repr

/-- Observable ledger calls the coordinator makes per page, in order; used
to state that the page number is persisted before the page is fetched. -/
inductive ScrapeEv
  | setLast (page : Int)
  | fetched (page : Int)
deriving DecidableEq, Repr

/-- What `_scrape_all` produces: the updated ledger, the work queue
contents in order, the returned `total`, the event trace, and the list of
records it observed (every record iterated by the inner `for`). -/
structure ScrapeOut where
  db       : DownloadDB
  queue    : List DocumentRecord
  total    : Nat
  events   : List ScrapeEv
  observed : List DocumentRecord
deriving Repr

/-- The inner `for record in records` loop: register the record, then
enqueue it unless its id is already completed, counting every record. -/
def processRecords (db : DownloadDB) (now : String) :
    List DocumentRecord → DownloadDB × List DocumentRecord × Nat
  | [] => (db, [], 0)
  | r :: rs =>
    let db1 := register_document db r.id r.employee_name r.employee_id
      r.doc_type r.doc_date r.listing_page r.row_index now
    let rest := processRecords db1 now rs
    (rest.1, (if !(is_completed db1 r.id) then [r] else []) ++ rest.2.1, rest.2.2 + 1)

/-- The `while True` page loop: persist `page_num`, fetch the current
page's records, process them, then stop unless a next page exists.  The
argument is the list of listing pages from the current one onward. -/
def scrapeLoop (db : DownloadDB) (pageNum : Int) (now : String) :
    List (List DocumentRecord) → ScrapeOut
  | [] =>
    ⟨set_last_page db pageNum, [], 0,
      [ScrapeEv.setLast pageNum, ScrapeEv.fetched pageNum], []⟩
  | [recs] =>
    let pr := processRecords (set_last_page db pageNum) now recs
    ⟨pr.1, pr.2.1, pr.2.2, [ScrapeEv.setLast pageNum, ScrapeEv.fetched pageNum], recs⟩
  | recs :: next :: rest =>
    let pr := processRecords (set_last_page db pageNum) now recs
    let s := scrapeLoop pr.1 (pageNum + 1) now (next :: rest)
    ⟨s.db, pr.2.1 ++ s.queue, pr.2.2 + s.total,
      ScrapeEv.setLast pageNum :: ScrapeEv.fetched pageNum :: s.events,
      recs ++ s.observed⟩

/-- `for _ in range(start_page - 1): if not has_next_page(): break;
go_to_next_page()`.  `pos` is the 0-based index of the current listing
page; `has_next_page` is `pos + 1 < numPages`. -/
def fastForward (numPages : Nat) : Nat → Nat → Nat
  | pos, 0 => pos
  | pos, steps + 1 =>
    if pos + 1 < numPages then fastForward numPages (pos + 1) steps else pos

/-- `BulkDownloader._scrape_all(queue, start_page)`.  `start_page` is a
Python `int`; a non-positive value makes the fast-forward range empty. -/
def scrape_all (db : DownloadDB) (pages : List (List DocumentRecord))
    (start_page : Int) (now : String) : ScrapeOut :=
  let pos := fastForward pages.length 0 (start_page - 1).toNat
  scrapeLoop db start_page now (pages.drop pos)

/-! ## The worker pool (`BulkDownloader._worker`, `_handle_session_timeout`)

The worker coroutines are embedded as an explicit transition system.  Each
worker is a little state machine whose states are the await points of
`_worker`; the shared state is the work queue, the ledger, the
`_session_ok` event, the `_reauth_lock` and a ghost prompt counter.  A
scheduler choice names a worker and resolves the oracles of its next step
(the download outcome and the driver's `is_session_expired` answer).  The
download attempt via `with_retry` is abstracted to its outcome — success
with a path, or a propagated exception — since its internal schedule is
verified separately above and it touches no shared state. -/

inductive WStage
  | idle                                            -- about to `queue.get_nowait()`
  | waitGate (r : DocumentRecord)                   -- at `_session_ok.wait()`
  | checkDone (r : DocumentRecord)                  -- about to re-read `is_completed`
  | rateWait (r : DocumentRecord)                   -- at `rate_limiter.acquire()`
  | marking (r : DocumentRecord)                    -- about to `mark_in_progress`
  | downloading (r : DocumentRecord)                -- inside `with_retry(...)`
  | checkExpiry (r : DocumentRecord) (err : String) -- in `except`, about to ask the driver
  | lockWait (r : DocumentRecord)                   -- at `async with _reauth_lock`
  | prompting (r : DocumentRecord)                  -- inside `_prompt_reauth()`
  | requeueActive (r : DocumentRecord)              -- first responder, about to re-queue
  | requeuePassive (r : DocumentRecord)             -- non-first responder, about to re-queue
  | sleeping                                        -- at the inter-item jitter sleep
  | finished                                        -- returned
deriving DecidableEq, Repr

structure WorkerSt where
  stage      : WStage
  downloaded : Nat
  skipped    : Nat
  failed     : Nat
  doneIds    : List String  -- ghost: the ids this worker marked completed
deriving DecidableEq, Repr

structure PoolState where
  queue     : List DocumentRecord  -- the asyncio.Queue (FIFO)
  db        : DownloadDB
  workers   : List WorkerSt
  sessionOk : Bool                 -- the `_session_ok` event
  lockHeld  : Bool                 -- the `_reauth_lock`
  prompts   : Nat                  -- ghost: `_prompt_reauth` invocation count
  clock     : Nat                  -- ghost: source of `_now()` timestamps
deriving DecidableEq, Repr

/-- A scheduler choice: which worker moves, plus the oracle outcomes of
that step. -/
inductive Choice
  | dequeue (i : Nat)
  | gate (i : Nat)
  | check (i : Nat)
  | rate (i : Nat)
  | mark (i : Nat)
  | dlOk (i : Nat) (path : String)
  | dlErr (i : Nat) (err : String)
  | expiry (i : Nat) (expired : Bool)
  | lock (i : Nat)
  | prompt (i : Nat)
  | requeue (i : Nat)
  | wake (i : Nat)
deriving DecidableEq, Repr

def setWorker (s : PoolState) (i : Nat) (w : WorkerSt) : PoolState :=
  { s with workers := s.workers.set i w }

/-- One transition of the pool, `none` when the chosen step is not enabled
in `s` (wrong stage, closed gate, held lock, …). -/
def runStep (s : PoolState) : Choice → Option PoolState
  | Choice.dequeue i => do
    let w ← s.workers.get? i
    match w.stage with
    | WStage.idle =>
      match s.queue with
      | [] => some (setWorker s i { w with stage := WStage.finished })
      | r :: rest =>
        some { setWorker s i { w with stage := WStage.waitGate r } with queue := rest }
    | _ => none
  | Choice.gate i => do
    let w ← s.workers.get? i
    match w.stage with
    | WStage.waitGate r =>
      if s.sessionOk then some (setWorker s i { w with stage := WStage.checkDone r })
      else none
    | _ => none
  | Choice.check i => do
    let w ← s.workers.get? i
    match w.stage with
    | WStage.checkDone r =>
      if is_completed s.db r.id then
        some (setWorker s i { w with stage := WStage.idle, skipped := w.skipped + 1 })
      else some (setWorker s i { w with stage := WStage.rateWait r })
    | _ => none
  | Choice.rate i => do
    let w ← s.workers.get? i
    match w.stage with
    | WStage.rateWait r => some (setWorker s i { w with stage := WStage.marking r })
    | _ => none
  | Choice.mark i => do
    let w ← s.workers.get? i
    match w.stage with
    | WStage.marking r =>
      some { setWorker s i { w with stage := WStage.downloading r } with
               db := mark_in_progress s.db r.id }
    | _ => none
  | Choice.dlOk i path => do
    let w ← s.workers.get? i
    match w.stage with
    | WStage.downloading r =>
      some { setWorker s i
               { w with stage := WStage.sleeping
                        downloaded := w.downloaded + 1
                        doneIds := r.id :: w.doneIds } with
             db := mark_completed s.db r.id path (toString s.clock)
             clock := s.clock + 1 }
    | _ => none
  | Choice.dlErr i err => do
    let w ← s.workers.get? i
    match w.stage with
    | WStage.downloading r =>
      some (setWorker s i { w with stage := WStage.checkExpiry r err })
    | _ => none
  | Choice.expiry i expired => do
    let w ← s.workers.get? i
    match w.stage with
    | WStage.checkExpiry r err =>
      if expired then some (setWorker s i { w with stage := WStage.lockWait r })
      else
        some { setWorker s i { w with stage := WStage.sleeping, failed := w.failed + 1 } with
                 db := mark_failed s.db r.id err }
    | _ => none
  | Choice.lock i => do
    let w ← s.workers.get? i
    match w.stage with
    | WStage.lockWait r =>
      if s.lockHeld then none
      else if s.sessionOk then
        some { setWorker s i { w with stage := WStage.prompting r } with
                 lockHeld := true, sessionOk := false }
      else
        some { setWorker s i { w with stage := WStage.requeuePassive r } with
                 lockHeld := true }
    | _ => none
  | Choice.prompt i => do
    let w ← s.workers.get? i
    match w.stage with
    | WStage.prompting r =>
      some { setWorker s i { w with stage := WStage.requeueActive r } with
               prompts := s.prompts + 1 }
    | _ => none
  | Choice.requeue i => do
    let w ← s.workers.get? i
    match w.stage with
    | WStage.requeueActive r =>
      some { setWorker s i { w with stage := WStage.idle } with
               queue := s.queue ++ [r], sessionOk := true, lockHeld := false }
    | WStage.requeuePassive r =>
      some { setWorker s i { w with stage := WStage.idle } with
               queue := s.queue ++ [r], lockHeld := false }
    | _ => none
  | Choice.wake i => do
    let w ← s.workers.get? i
    match w.stage with
    | WStage.sleeping => some (setWorker s i { w with stage := WStage.idle })
    | _ => none

def PoolStep (s s2 : PoolState) : Prop := ∃ c, runStep s c = some s2

/-- Reachability under any interleaving of enabled steps. -/
def PoolReach : PoolState → PoolState → Prop := Relation.ReflTransGen PoolStep

/-- Run a concrete schedule; choices that are not enabled are skipped. -/
def runSched (s : PoolState) : List Choice → PoolState
  | [] => s
  | c :: cs =>
    match runStep s c with
    | some s2 => runSched s2 cs
    | none => runSched s cs

def initWorker : WorkerSt := ⟨WStage.idle, 0, 0, 0, []⟩

/-- The pool as `BulkDownloader.run` starts it: the scraped queue, the
shared ledger, `n_workers` fresh workers, the `_session_ok` event set and
the re-auth lock free. -/
def initPool (records : List DocumentRecord) (db : DownloadDB) (nWorkers : Nat) :
    PoolState :=
  ⟨records, db, List.replicate nWorkers initWorker, true, false, 0, 0⟩

def sumDownloaded (s : PoolState) : Nat := (s.workers.map (fun w => w.downloaded)).sum
def sumSkipped (s : PoolState) : Nat := (s.workers.map (fun w => w.skipped)).sum
def sumFailed (s : PoolState) : Nat := (s.workers.map (fun w => w.failed)).sum

/-- `asyncio.gather` returns once every worker coroutine has returned. -/
def allFinished (s : PoolState) : Prop := ∀ w ∈ s.workers, w.stage = WStage.finished

/-- The record a worker currently holds (dequeued but neither counted nor
re-queued), if any. -/
def heldIds : WStage → List String
  | WStage.idle => []
  | WStage.waitGate r => [r.id]
  | WStage.checkDone r => [r.id]
  | WStage.rateWait r => [r.id]
  | WStage.marking r => [r.id]
  | WStage.downloading r => [r.id]
  | WStage.checkExpiry r _ => [r.id]
  | WStage.lockWait r => [r.id]
  | WStage.prompting r => [r.id]
  | WStage.requeueActive r => [r.id]
  | WStage.requeuePassive r => [r.id]
  | WStage.sleeping => []
  | WStage.finished => []

/-- All ids still in flight: queued or held by some worker. -/
def activeIds (s : PoolState) : List String :=
  s.queue.map (fun r => r.id) ++ s.workers.flatMap (fun w => heldIds w.stage)

def tallies (w : WorkerSt) : Nat := w.downloaded + w.skipped + w.failed

def heldCount (w : WorkerSt) : Nat := (heldIds w.stage).length

/-- The inductive invariant of the worker pool: every one of the `R`
initial records is accounted for exactly once (still queued, held by a
worker, or counted in a tally); no id occurs twice among the queued and
held records; a completed id is never queued or held; and once every
worker has returned the queue is empty. -/
structure PoolInv (R : Nat) (s : PoolState) : Prop where
  count : s.queue.length + (s.workers.map heldCount).sum
      + (s.workers.map tallies).sum = R
  uniq : (activeIds s).Nodup
  comp : ∀ docId, is_completed s.db docId = true → docId ∉ activeIds s
  drained : (∀ w ∈ s.workers, w.stage = WStage.finished) → s.queue = []

/-- A concrete operation sequence refuting the unconditional status
invariant: a completed document is subsequently marked failed (the
`UPDATE` in `mark_failed` touches `status` and `last_error` but not
`completed_at`). -/
def c5Ops : List DBOp :=
  [DBOp.register "d" "Ann" "E1" "W2" "2024-01-31" 1 0 "t0",
   DBOp.markInProgress "d",
   DBOp.markCompleted "d" "out/d.pdf" "t1",
   DBOp.markFailed "d" "boom"]

/-- A guarded operation sequence used to exhibit the amended invariant on a
concrete run. -/
def c5GoodOps : List DBOp :=
  [DBOp.register "d" "Ann" "E1" "W2" "2024-01-31" 1 0 "t0",
   DBOp.markInProgress "d",
   DBOp.markCompleted "d" "out/d.pdf" "t1"]

/-- A small concrete listing used to exhibit the scrape behaviour: three
records over two pages, one of them already completed in the store. -/
def c7Rec (i : String) (pg ix : Int) : DocumentRecord :=
  ⟨i, "emp", "E", "W2", "2024", pg, ix⟩

def c7Pages : List (List DocumentRecord) :=
  [[c7Rec "a" 1 0, c7Rec "b" 1 1], [c7Rec "c" 2 0]]

def c7DB : DownloadDB :=
  mark_completed (register_document emptyDB "b" "emp" "E" "W2" "2024" 1 1 "t0")
    "b" "out/b.pdf" "t1"

def c1Records : List DocumentRecord := [c7Rec "x" 1 0, c7Rec "y" 1 1]

/-- A schedule in which two workers observe session expiry concurrently —
both run the driver's `is_session_expired` check before either reaches the
re-auth lock — i.e. one incident. -/
def c1Sched : List Choice :=
  [Choice.dequeue 0, Choice.dequeue 1, Choice.gate 0, Choice.gate 1,
   Choice.check 0, Choice.check 1, Choice.rate 0, Choice.rate 1,
   Choice.mark 0, Choice.mark 1,
   Choice.dlErr 0 "TimeoutError", Choice.dlErr 1 "TimeoutError",
   Choice.expiry 0 true, Choice.expiry 1 true,
   Choice.lock 0, Choice.prompt 0, Choice.requeue 0,
   Choice.lock 1, Choice.prompt 1, Choice.requeue 1]

def c2Records : List DocumentRecord := [c7Rec "x" 1 0]

/-- A one-worker schedule that downloads the single record and drains the
queue. -/
def c2Sched : List Choice :=
  [Choice.dequeue 0, Choice.gate 0, Choice.check 0, Choice.rate 0, Choice.mark 0,
   Choice.dlOk 0 "out/x.pdf", Choice.wake 0, Choice.dequeue 0]

/-- Invariant tying a limiter state to the completion history `cs`: the
deque `slots` is a suffix of the history, every completion outside it left
the window before the last completion `tprev`, the history is sorted with
all entries at most `tprev`, the deque never exceeds `max_calls`, and any
two completions `max_calls` apart are at least `window` apart. -/
structure RLInv (mc : Nat) (w : ℚ) (cs slots : List ℚ) (tprev : ℚ) : Prop where
  split : ∃ pre, cs = pre ++ slots ∧ ∀ c ∈ pre, c + w ≤ tprev
  sorted : cs.Pairwise (fun a b => a ≤ b)
  size : slots.length ≤ mc
  le_t : ∀ c ∈ cs, c ≤ tprev
  spacing : ∀ (i j : Nat) (hi : i < cs.length) (hj : j < cs.length), i + mc ≤ j →
    cs.get ⟨i, hi⟩ + w ≤ cs.get ⟨j, hj⟩

/-! # Theorems -/

theorem lookupDoc_eq_none (docs : List (String × DocRow)) (docId : String) :
    lookupDoc docs docId = none ↔ ∀ p ∈ docs, ¬(p.1 = docId) := by
  simp [lookupDoc, List.find?_eq_none]

theorem map_if_not_mem (docs : List (String × DocRow)) (docId : String)
    (f : DocRow → DocRow) (h : ∀ p ∈ docs, ¬(p.1 = docId)) :
    docs.map (fun p => if p.1 == docId then (p.1, f p.2) else p) = docs := by
  induction docs with
  | nil => rfl
  | cons a l ih =>
    have ha := h a (List.mem_cons_self a l)
    have hl := ih (fun p hp => h p (List.mem_cons_of_mem a hp))
    simp only [List.map_cons, hl]
    rw [if_neg (by simp [ha])]

theorem updateDoc_not_found (db : DownloadDB) (docId : String) (f : DocRow → DocRow)
    (habs : lookupDoc db.documents docId = none) : updateDoc db docId f = db := by
  rw [lookupDoc_eq_none] at habs
  unfold updateDoc
  rw [map_if_not_mem db.documents docId f habs]

/-- C10: for every id that was never registered, `mark_in_progress`,
`mark_completed` and `mark_failed` with that id leave the database entirely
unchanged (the `UPDATE` matches no row) and raise no error. -/
theorem mark_unregistered_noop (db : DownloadDB) (docId file_path now error : String)
    (habs : lookupDoc db.documents docId = none) :
    mark_in_progress db docId = db
    ∧ mark_completed db docId file_path now = db
    ∧ mark_failed db docId error = db :=
  ⟨updateDoc_not_found db docId _ habs, updateDoc_not_found db docId _ habs,
   updateDoc_not_found db docId _ habs⟩

theorem mark_unregistered_noop_witness :
    mark_in_progress emptyDB "x" = emptyDB
    ∧ mark_completed emptyDB "x" "p" "t" = emptyDB
    ∧ mark_failed emptyDB "x" "e" = emptyDB :=
  mark_unregistered_noop emptyDB "x" "p" "t" "e" (by decide)

/-- C6: registering the same id twice, whatever the second call supplies,
leaves exactly one row for that id whose fields all equal those from the
first call; the second registration does not mutate the store at all. -/
theorem register_document_idempotent (db : DownloadDB) (docId : String)
    (en1 ei1 dt1 dd1 : String) (lp1 ri1 : Int) (n1 : String)
    (en2 ei2 dt2 dd2 : String) (lp2 ri2 : Int) (n2 : String)
    (habs : lookupDoc db.documents docId = none) :
    register_document (register_document db docId en1 ei1 dt1 dd1 lp1 ri1 n1)
        docId en2 ei2 dt2 dd2 lp2 ri2 n2
      = register_document db docId en1 ei1 dt1 dd1 lp1 ri1 n1
    ∧ ((register_document db docId en1 ei1 dt1 dd1 lp1 ri1 n1).documents.countP
        (fun p => p.1 == docId)) = 1
    ∧ lookupDoc (register_document db docId en1 ei1 dt1 dd1 lp1 ri1 n1).documents docId
      = some ⟨en1, ei1, dt1, dd1, lp1, ri1, DocStatus.pending, 0, none, none, n1, none⟩ := by
  have hmem := (lookupDoc_eq_none db.documents docId).mp habs
  have hdocs : (register_document db docId en1 ei1 dt1 dd1 lp1 ri1 n1).documents
      = db.documents ++
        [(docId, ⟨en1, ei1, dt1, dd1, lp1, ri1, DocStatus.pending, 0, none, none, n1, none⟩)] := by
    simp [register_document, habs]
  have hfind : db.documents.find? (fun p => p.1 == docId) = none := by
    rw [List.find?_eq_none]
    intro p hp
    simp [hmem p hp]
  have hlook : lookupDoc (register_document db docId en1 ei1 dt1 dd1 lp1 ri1 n1).documents docId
      = some ⟨en1, ei1, dt1, dd1, lp1, ri1, DocStatus.pending, 0, none, none, n1, none⟩ := by
    rw [hdocs]
    simp [lookupDoc, List.find?_append, hfind]
  refine ⟨?_, ?_, hlook⟩
  · have hsome : (lookupDoc (register_document db docId en1 ei1 dt1 dd1 lp1 ri1 n1).documents
        docId).isSome = true := by rw [hlook]; rfl
    conv_lhs => rw [register_document]
    rw [if_pos hsome]
  · rw [hdocs, List.countP_append]
    have h0 : db.documents.countP (fun p => p.1 == docId) = 0 := by
      rw [List.countP_eq_zero]
      intro p hp
      simp [hmem p hp]
    simp [h0]

theorem register_document_idempotent_witness :
    register_document (register_document emptyDB "d" "Ann" "E1" "W2" "2024-01-31" 1 0 "t0")
        "d" "Bob" "E9" "paystub" "2020-02-02" 7 3 "t9"
      = register_document emptyDB "d" "Ann" "E1" "W2" "2024-01-31" 1 0 "t0"
    ∧ ((register_document emptyDB "d" "Ann" "E1" "W2" "2024-01-31" 1 0 "t0").documents.countP
        (fun p => p.1 == "d")) = 1
    ∧ lookupDoc (register_document emptyDB "d" "Ann" "E1" "W2" "2024-01-31" 1 0 "t0").documents "d"
      = some ⟨"Ann", "E1", "W2", "2024-01-31", 1, 0, DocStatus.pending, 0, none, none, "t0", none⟩ :=
  register_document_idempotent emptyDB "d" "Ann" "E1" "W2" "2024-01-31" 1 0 "t0"
    "Bob" "E9" "paystub" "2020-02-02" 7 3 "t9" (by decide)

/-- C5 fails as stated: `mark_failed` (and `mark_in_progress`) do not clear
`completed_at`, so marking a completed row failed leaves a non-null
`completed_at` on a row whose status is `failed`. -/
theorem completed_at_counterexample :
    ¬ completedAtInv (applyOps emptyDB c5Ops)
    ∧ (∃ r, lookupDoc (applyOps emptyDB c5Ops).documents "d" = some r
        ∧ r.status = DocStatus.failed ∧ r.completed_at = some "t1") := by
  constructor
  · intro h
    have := h ("d", ⟨"Ann", "E1", "W2", "2024-01-31", 1, 0, DocStatus.failed, 1,
      some "boom", some "out/d.pdf", "t0", some "t1"⟩) (by decide)
    simp at this
  · exact ⟨⟨"Ann", "E1", "W2", "2024-01-31", 1, 0, DocStatus.failed, 1,
      some "boom", some "out/d.pdf", "t0", some "t1"⟩, by decide, rfl, rfl⟩

theorem register_preserves_completedAtInv (db : DownloadDB)
    (docId en ei dt dd : String) (lp ri : Int) (now : String)
    (hinv : completedAtInv db) :
    completedAtInv (register_document db docId en ei dt dd lp ri now) := by
  unfold register_document
  split
  · exact hinv
  · intro p hp
    rcases List.mem_append.mp hp with h | h
    · exact hinv p h
    · simp only [List.mem_singleton] at h
      subst h
      simp

theorem mark_completed_preserves_completedAtInv (db : DownloadDB)
    (docId file_path now : String) (hinv : completedAtInv db) :
    completedAtInv (mark_completed db docId file_path now) := by
  intro p hp
  simp only [mark_completed, updateDoc, List.mem_map] at hp
  obtain ⟨q, hq, hpq⟩ := hp
  by_cases h : q.1 == docId
  · rw [if_pos h] at hpq
    subst hpq
    simp
  · rw [if_neg h] at hpq
    subst hpq
    exact hinv q hq

theorem not_completed_of_is_completed_false (db : DownloadDB) (docId : String)
    (hnc : is_completed db docId = false) :
    ∀ p ∈ db.documents, p.1 = docId → ¬(p.2.status = DocStatus.completed) := by
  intro p hp heq hst
  have h2 : (p.1 == docId && p.2.status == DocStatus.completed) = true := by
    simp [heq, hst]
  have h3 : is_completed db docId = true := List.any_eq_true.mpr ⟨p, hp, h2⟩
  rw [hnc] at h3
  exact Bool.false_ne_true h3

theorem mark_in_progress_preserves_completedAtInv (db : DownloadDB) (docId : String)
    (hnc : is_completed db docId = false) (hinv : completedAtInv db) :
    completedAtInv (mark_in_progress db docId) := by
  intro p hp
  simp only [mark_in_progress, updateDoc, List.mem_map] at hp
  obtain ⟨q, hq, hpq⟩ := hp
  by_cases h : q.1 == docId
  · rw [if_pos h] at hpq
    subst hpq
    have hne := not_completed_of_is_completed_false db docId hnc q hq (by simpa using h)
    have : ¬ q.2.completed_at.isSome := fun hs => hne ((hinv q hq).mp hs)
    simp only [Option.not_isSome_iff_eq_none] at this
    simp [this]
  · rw [if_neg h] at hpq
    subst hpq
    exact hinv q hq

theorem mark_failed_preserves_completedAtInv (db : DownloadDB) (docId error : String)
    (hnc : is_completed db docId = false) (hinv : completedAtInv db) :
    completedAtInv (mark_failed db docId error) := by
  intro p hp
  simp only [mark_failed, updateDoc, List.mem_map] at hp
  obtain ⟨q, hq, hpq⟩ := hp
  by_cases h : q.1 == docId
  · rw [if_pos h] at hpq
    subst hpq
    have hne := not_completed_of_is_completed_false db docId hnc q hq (by simpa using h)
    have : ¬ q.2.completed_at.isSome := fun hs => hne ((hinv q hq).mp hs)
    simp only [Option.not_isSome_iff_eq_none] at this
    simp [this]
  · rw [if_neg h] at hpq
    subst hpq
    exact hinv q hq

/-- C5 amended: `completed_at` is non-null exactly on `completed` rows after
every operation sequence in which `mark_in_progress` and `mark_failed` are
only applied to ids that are not currently completed — which is how the
worker pool issues them, since a worker re-checks `is_completed`
immediately before acting on a record. -/
theorem completed_at_iff_completed_of_guarded (db : DownloadDB) (ops : List DBOp)
    (hinv : completedAtInv db) (hg : guardedOps db ops) :
    completedAtInv (applyOps db ops) := by
  induction ops generalizing db with
  | nil => exact hinv
  | cons op ops ih =>
    obtain ⟨h1, h2⟩ := hg
    refine ih (applyOp db op) ?_ h2
    cases op with
    | register docId en ei dt dd lp ri now =>
      exact register_preserves_completedAtInv db docId en ei dt dd lp ri now hinv
    | markInProgress docId =>
      exact mark_in_progress_preserves_completedAtInv db docId h1 hinv
    | markCompleted docId fp now =>
      exact mark_completed_preserves_completedAtInv db docId fp now hinv
    | markFailed docId error =>
      exact mark_failed_preserves_completedAtInv db docId error h1 hinv

theorem completed_at_iff_completed_of_guarded_witness :
    completedAtInv (applyOps emptyDB c5GoodOps) :=
  completed_at_iff_completed_of_guarded emptyDB c5GoodOps
    (by intro p hp; simp [emptyDB] at hp)
    (by exact ⟨trivial, by decide, trivial, trivial⟩)

/-! ### Retry executor theorems -/

theorem retryGo_succeeds {E T : Type} (fn : Nat → Except E T) (base maxD : ℚ)
    (jit : Bool) (jitF : Nat → ℚ) (v : T) (es : Nat → E) :
    ∀ (d attempt fuel : Nat), d < fuel →
      (∀ a, attempt ≤ a → a < attempt + d → fn a = Except.error (es a)) →
      fn (attempt + d) = Except.ok v →
      (retryGo fn base maxD jit jitF attempt fuel).invocations = d + 1
      ∧ (retryGo fn base maxD jit jitF attempt fuel).result = Except.ok v := by
  intro d
  induction d with
  | zero =>
    intro attempt fuel hd hfail hok
    match fuel, hd with
    | fuel + 1, _ =>
      rw [Nat.add_zero] at hok
      simp [retryGo, hok]
  | succ d ih =>
    intro attempt fuel hd hfail hok
    match fuel, hd with
    | fuel + 1, hd =>
      have hf : fn attempt = Except.error (es attempt) :=
        hfail attempt le_rfl (by omega)
      have hfuel : ¬(fuel = 0) := by omega
      have hok2 : fn (attempt + 1 + d) = Except.ok v := by
        have h : attempt + 1 + d = attempt + (d + 1) := by omega
        rw [h]; exact hok
      obtain ⟨h1, h2⟩ := ih (attempt + 1) fuel (by omega)
        (fun a ha1 ha2 => hfail a (by omega) (by omega)) hok2
      simp [retryGo, hf, hfuel, h1, h2]

theorem retryGo_all_fail {E T : Type} (fn : Nat → Except E T) (base maxD : ℚ)
    (jit : Bool) (jitF : Nat → ℚ) (es : Nat → E)
    (hfail : ∀ a, 1 ≤ a → fn a = Except.error (es a)) :
    ∀ (fuel attempt : Nat), 1 ≤ fuel → 1 ≤ attempt →
      (retryGo fn base maxD jit jitF attempt fuel).invocations = fuel
      ∧ (retryGo fn base maxD jit jitF attempt fuel).result
        = Except.error (RetryError.opError (es (attempt + fuel - 1))) := by
  intro fuel
  induction fuel with
  | zero => intro attempt h; omega
  | succ fuel ih =>
    intro attempt _ hatt
    have hf := hfail attempt hatt
    by_cases h0 : fuel = 0
    · subst h0
      simp [retryGo, hf]
    · obtain ⟨h1, h2⟩ := ih (attempt + 1) (by omega) (by omega)
      have hidx : attempt + 1 + fuel - 1 = attempt + (fuel + 1) - 1 := by omega
      rw [hidx] at h2
      simp [retryGo, hf, h0, h1, h2]

theorem retryGo_delays_length {E T : Type} (fn : Nat → Except E T) (base maxD : ℚ)
    (jit : Bool) (jitF : Nat → ℚ) :
    ∀ (fuel attempt : Nat), 1 ≤ fuel →
      (retryGo fn base maxD jit jitF attempt fuel).delays.length + 1
        = (retryGo fn base maxD jit jitF attempt fuel).invocations := by
  intro fuel
  induction fuel with
  | zero => intro attempt h; omega
  | succ fuel ih =>
    intro attempt _
    cases hfn : fn attempt with
    | ok v => simp [retryGo, hfn]
    | error e =>
      by_cases h0 : fuel = 0
      · simp [retryGo, hfn, h0]
      · have := ih (attempt + 1) (by omega)
        simp [retryGo, hfn, h0]
        omega

theorem retryGo_delays_get? {E T : Type} (fn : Nat → Except E T) (base maxD : ℚ)
    (jit : Bool) (jitF : Nat → ℚ) :
    ∀ (fuel attempt j : Nat) (d : ℚ),
      (retryGo fn base maxD jit jitF attempt fuel).delays.get? j = some d →
      d = retryDelay base maxD jit jitF (attempt + j) := by
  intro fuel
  induction fuel with
  | zero => intro attempt j d h; simp [retryGo] at h
  | succ fuel ih =>
    intro attempt j d h
    cases hfn : fn attempt with
    | ok v => simp [retryGo, hfn] at h
    | error e =>
      by_cases h0 : fuel = 0
      · simp [retryGo, hfn, h0] at h
      · simp only [retryGo, hfn, h0, if_false, ite_false] at h
        cases j with
        | zero =>
          simp at h
          rw [Nat.add_zero, ← h]
        | succ j =>
          simp only [List.get?_cons_succ] at h
          have := ih (attempt + 1) j d h
          have harith : attempt + 1 + j = attempt + (j + 1) := by omega
          rw [harith] at this
          exact this

/-- C3: an operation failing exactly `k-1` times then succeeding, under
`max_attempts ≥ k ≥ 1`, is invoked exactly `k` times and its success value
returned; an operation that always fails, under `max_attempts = m ≥ 1`, is
invoked exactly `m` times and the error propagated to the caller is exactly
the error of the `m`-th invocation (an `opError`, never the synthesized
`noAttempts` failure). -/
theorem retry_determinism {E T : Type} (fn : Nat → Except E T)
    (base_delay max_delay : ℚ) (jitter : Bool) (jitF : Nat → ℚ) :
    (∀ (k m : Nat) (es : Nat → E) (v : T), 1 ≤ k → k ≤ m →
      (∀ a, 1 ≤ a → a < k → fn a = Except.error (es a)) →
      fn k = Except.ok v →
      (with_retry fn (m : Int) base_delay max_delay jitter jitF).invocations = k
      ∧ (with_retry fn (m : Int) base_delay max_delay jitter jitF).result
        = Except.ok v)
    ∧ (∀ (m : Nat) (es : Nat → E), 1 ≤ m →
      (∀ a, 1 ≤ a → fn a = Except.error (es a)) →
      (with_retry fn (m : Int) base_delay max_delay jitter jitF).invocations = m
      ∧ (with_retry fn (m : Int) base_delay max_delay jitter jitF).result
        = Except.error (RetryError.opError (es m))) := by
  constructor
  · intro k m es v hk hkm hfail hok
    have htn : ((m : Int)).toNat = m := Int.toNat_natCast m
    have hok2 : fn (1 + (k - 1)) = Except.ok v := by
      have h : 1 + (k - 1) = k := by omega
      rw [h]; exact hok
    obtain ⟨h1, h2⟩ := retryGo_succeeds fn base_delay max_delay jitter jitF v es
      (k - 1) 1 m (by omega) (fun a ha1 ha2 => hfail a ha1 (by omega)) hok2
    rw [with_retry, htn]
    exact ⟨by rw [h1]; omega, h2⟩
  · intro m es hm hfail
    have htn : ((m : Int)).toNat = m := Int.toNat_natCast m
    obtain ⟨h1, h2⟩ := retryGo_all_fail fn base_delay max_delay jitter jitF es hfail
      m 1 hm le_rfl
    have hidx : 1 + m - 1 = m := by omega
    rw [hidx] at h2
    rw [with_retry, htn]
    exact ⟨h1, h2⟩

theorem retry_determinism_witness :
    ((with_retry (fun a => if a < 3 then Except.error (toString a) else Except.ok "done")
        (5 : Int) 2 60 true (fun _ => 1)).invocations = 3
      ∧ (with_retry (fun a => if a < 3 then Except.error (toString a) else Except.ok "done")
        (5 : Int) 2 60 true (fun _ => 1)).result = Except.ok "done")
    ∧ ((with_retry (fun _ => (Except.error "always" : Except String String))
        (4 : Int) 2 60 true (fun _ => 1)).invocations = 4
      ∧ (with_retry (fun _ => (Except.error "always" : Except String String))
        (4 : Int) 2 60 true (fun _ => 1)).result
        = Except.error (RetryError.opError "always")) := by
  constructor
  · exact (retry_determinism
      (fun a => if a < 3 then Except.error (toString a) else Except.ok "done")
      2 60 true (fun _ => 1)).1 3 5 (fun a => toString a) "done"
      (by decide) (by decide)
      (fun a h1 h2 => by simp [h2])
      (by simp)
  · exact (retry_determinism (fun _ => (Except.error "always" : Except String String))
      2 60 true (fun _ => 1)).2 4 (fun _ => "always") (by decide) (fun a h => rfl)

/-- C9: with a non-positive `max_attempts` (an undocumented, unvalidated
call), the `for` loop body never runs: the wrapped operation is never
invoked and the synthesized `RuntimeError("No attempts made")` is raised
instead of any operation error. -/
theorem retry_no_attempts {E T : Type} (fn : Nat → Except E T)
    (base_delay max_delay : ℚ) (jitter : Bool) (jitF : Nat → ℚ)
    (max_attempts : Int) (hm : max_attempts ≤ 0) :
    with_retry fn max_attempts base_delay max_delay jitter jitF
      = ⟨0, [], Except.error RetryError.noAttempts⟩ := by
  have h : max_attempts.toNat = 0 := Int.toNat_of_nonpos hm
  rw [with_retry, h]
  rfl

theorem retry_no_attempts_witness :
    with_retry (fun _ => (Except.error "boom" : Except String String))
        (-2 : Int) 2 60 true (fun _ => 1)
      = ⟨0, [], Except.error RetryError.noAttempts⟩ :=
  retry_no_attempts (fun _ => (Except.error "boom" : Except String String))
    2 60 true (fun _ => 1) (-2) (by decide)

/-- C8: with jitter enabled, the delay slept before retry `k` (1-indexed,
i.e. the `j = k-1`-th recorded delay) lies in
`[d/2, 3d/2]` for `d = min(base_delay * 2^(k-1), max_delay)`, provided the
jitter factors lie in `[1/2, 3/2]` (the code draws them from
`0.5 + random.random() ∈ [0.5, 1.5)`); and a delay is incurred only
between attempts: the number of delays is exactly the number of
invocations minus one, so none follows the final or a successful
attempt. -/
theorem retry_delay_bounds {E T : Type} (fn : Nat → Except E T)
    (base_delay max_delay : ℚ) (jitF : Nat → ℚ) (max_attempts : Nat)
    (hm : 1 ≤ max_attempts) (hbase : 0 ≤ base_delay) (hmax : 0 ≤ max_delay)
    (hjit : ∀ a, 1/2 ≤ jitF a ∧ jitF a ≤ 3/2) :
    (with_retry fn (max_attempts : Int) base_delay max_delay true jitF).delays.length + 1
      = (with_retry fn (max_attempts : Int) base_delay max_delay true jitF).invocations
    ∧ ∀ (j : Nat) (d : ℚ),
      (with_retry fn (max_attempts : Int) base_delay max_delay true jitF).delays.get? j
          = some d →
      min (base_delay * 2 ^ j) max_delay / 2 ≤ d
      ∧ d ≤ 3 * min (base_delay * 2 ^ j) max_delay / 2 := by
  have htn : ((max_attempts : Int)).toNat = max_attempts := Int.toNat_natCast max_attempts
  constructor
  · rw [with_retry, htn]
    exact retryGo_delays_length fn base_delay max_delay true jitF max_attempts 1 hm
  · intro j d hget
    rw [with_retry, htn] at hget
    have hd := retryGo_delays_get? fn base_delay max_delay true jitF max_attempts 1 j d hget
    have hsimp : 1 + j - 1 = j := by omega
    rw [retryDelay, if_pos rfl] at hd
    rw [hsimp] at hd
    have hdd : 0 ≤ min (base_delay * 2 ^ j) max_delay :=
      le_min (mul_nonneg hbase (by positivity)) hmax
    obtain ⟨hj1, hj2⟩ := hjit (1 + j)
    constructor
    · rw [hd]
      nlinarith [mul_le_mul_of_nonneg_left hj1 hdd]
    · rw [hd]
      nlinarith [mul_le_mul_of_nonneg_left hj2 hdd]

theorem retry_delay_bounds_witness :
    ((with_retry (fun _ => (Except.error "x" : Except String String))
        ((3 : Nat) : Int) 2 60 true (fun _ => 1)).delays.length + 1
      = (with_retry (fun _ => (Except.error "x" : Except String String))
        ((3 : Nat) : Int) 2 60 true (fun _ => 1)).invocations)
    ∧ (min ((2 : ℚ) * 2 ^ 1) 60 / 2 ≤ 4 ∧ (4 : ℚ) ≤ 3 * min ((2 : ℚ) * 2 ^ 1) 60 / 2) := by
  constructor
  · exact (retry_delay_bounds (fun _ => (Except.error "x" : Except String String))
      2 60 (fun _ => 1) 3 (by decide) (by norm_num) (by norm_num)
      (fun a => by norm_num)).1
  · exact (retry_delay_bounds (fun _ => (Except.error "x" : Except String String))
      2 60 (fun _ => 1) 3 (by decide) (by norm_num) (by norm_num)
      (fun a => by norm_num)).2 1 4 (by norm_num [with_retry, retryGo, retryDelay])

/-! ### Rate limiter theorems -/

theorem acquireStep_lt (mc : Nat) (w : ℚ) (slots : List ℚ) (now slack : ℚ)
    (hlt : ¬ mc ≤ (slots.dropWhile (fun t => decide (t ≤ now - w))).length) :
    acquireStep mc w slots now slack
      = (slots.dropWhile (fun t => decide (t ≤ now - w)) ++ [now + max slack 0],
         now + max slack 0) := by
  simp only [acquireStep]
  rw [if_neg hlt]

theorem acquireStep_ge (mc : Nat) (w : ℚ) (slots : List ℚ) (now slack : ℚ)
    (hd : ℚ) (rest : List ℚ)
    (hpr : slots.dropWhile (fun t => decide (t ≤ now - w)) = hd :: rest)
    (hge : mc ≤ (slots.dropWhile (fun t => decide (t ≤ now - w))).length) :
    acquireStep mc w slots now slack
      = (rest ++ [max now (hd + w) + max slack 0], max now (hd + w) + max slack 0) := by
  have hge2 : mc ≤ (hd :: rest).length := by rw [← hpr]; exact hge
  simp only [acquireStep, hpr]
  rw [if_pos hge2]

theorem getElem_append_mem_left {α : Type} (A B : List α) (i : Nat) (hi : i < A.length)
    (h : i < (A ++ B).length) : (A ++ B)[i] ∈ A := by
  rw [List.getElem_append_left hi]
  exact List.getElem_mem hi

theorem RLInv.step (mc : Nat) (w : ℚ) (cs slots : List ℚ) (tprev : ℚ)
    (hmc : 1 ≤ mc) (h : RLInv mc w cs slots tprev) (now slack : ℚ)
    (hnow : tprev ≤ now) :
    RLInv mc w (cs ++ [(acquireStep mc w slots now slack).2])
      (acquireStep mc w slots now slack).1 (acquireStep mc w slots now slack).2 := by
  obtain ⟨pre, hcs, hpre⟩ := h.split
  have htd := List.takeWhile_append_dropWhile (fun t => decide (t ≤ now - w)) slots
  have htw : ∀ c ∈ slots.takeWhile (fun t => decide (t ≤ now - w)), c + w ≤ now := by
    intro c hc
    have hb := List.mem_takeWhile_imp hc
    simp only [decide_eq_true_eq] at hb
    linarith
  have hcs2 : cs = (pre ++ slots.takeWhile (fun t => decide (t ≤ now - w)))
      ++ slots.dropWhile (fun t => decide (t ≤ now - w)) := by
    rw [hcs, List.append_assoc, htd]
  have hpre2 : ∀ c ∈ pre ++ slots.takeWhile (fun t => decide (t ≤ now - w)),
      c + w ≤ now := by
    intro c hc
    rcases List.mem_append.mp hc with hc | hc
    · have := hpre c hc
      linarith
    · exact htw c hc
  have hslack : (0 : ℚ) ≤ max slack 0 := le_max_right _ _
  have hcsle : ∀ c ∈ cs, c ≤ now := fun c hc => le_trans (h.le_t c hc) hnow
  by_cases hge : mc ≤ (slots.dropWhile (fun t => decide (t ≤ now - w))).length
  · -- the deque is full after pruning: wait for the oldest slot, drop it
    have hne : slots.dropWhile (fun t => decide (t ≤ now - w)) ≠ [] := by
      intro he
      rw [he] at hge
      simp at hge
      omega
    obtain ⟨hd, rest, hpr⟩ := List.exists_cons_of_ne_nil hne
    rw [acquireStep_ge mc w slots now slack hd rest hpr hge]
    dsimp only
    have hcval : now ≤ max now (hd + w) + max slack 0 := by
      have := le_max_left now (hd + w)
      linarith
    have hhd : hd + w ≤ max now (hd + w) + max slack 0 := by
      have := le_max_right now (hd + w)
      linarith
    have hprsub : (slots.dropWhile (fun t => decide (t ≤ now - w))).Sublist slots :=
      List.dropWhile_sublist _
    have hprlen : (slots.dropWhile (fun t => decide (t ≤ now - w))).length = mc :=
      le_antisymm (le_trans hprsub.length_le h.size) hge
    have hrestlen : rest.length + 1 = mc := by
      rw [hpr] at hprlen
      simpa using hprlen
    have hcs3 : cs = (pre ++ slots.takeWhile (fun t => decide (t ≤ now - w)))
        ++ (hd :: rest) := by
      rw [hcs2, hpr]
    refine ⟨?_, ?_, ?_, ?_, ?_⟩
    · -- split: move the pruned prefix and the dropped head into the old part
      refine ⟨(pre ++ slots.takeWhile (fun t => decide (t ≤ now - w))) ++ [hd], ?_, ?_⟩
      · rw [hcs3]
        simp
      · intro c hc
        rcases List.mem_append.mp hc with hc | hc
        · have := hpre2 c hc
          linarith
        · simp only [List.mem_singleton] at hc
          rw [hc]
          exact hhd
    · rw [List.pairwise_append]
      refine ⟨h.sorted, List.pairwise_singleton _ _, fun a ha b hb => ?_⟩
      simp only [List.mem_singleton] at hb
      rw [hb]
      exact le_trans (hcsle a ha) hcval
    · simp only [List.length_append, List.length_singleton]
      omega
    · intro c hc
      rcases List.mem_append.mp hc with hc | hc
      · exact le_trans (hcsle c hc) hcval
      · simp only [List.mem_singleton] at hc
        rw [hc]
    · intro i j hi hj hij
      simp only [List.get_eq_getElem]
      rcases Nat.lt_or_ge j cs.length with hjlt | hjge
      · rw [List.getElem_append_left (lt_of_le_of_lt (by omega) hjlt),
            List.getElem_append_left hjlt]
        exact h.spacing i j (by omega) hjlt hij
      · -- j is the new completion
        have hjl : j < cs.length + 1 := by
          simpa using hj
        have hjeq : j = cs.length := by omega
        subst hjeq
        rw [List.getElem_append_right (le_refl cs.length)]
        simp only [Nat.sub_self, List.getElem_singleton]
        have hilen : i < cs.length := by omega
        rw [List.getElem_append_left hilen]
        have hlen2 : cs.length
            = (pre ++ slots.takeWhile (fun t => decide (t ≤ now - w))).length + mc := by
          rw [hcs3, List.length_append]
          simp
          omega
        rcases Nat.lt_or_ge i (pre ++ slots.takeWhile (fun t => decide (t ≤ now - w))).length
          with hil | hil
        · have hmem : cs[i] ∈ pre ++ slots.takeWhile (fun t => decide (t ≤ now - w)) := by
            rw [List.getElem_of_eq hcs3 hilen]
            exact getElem_append_mem_left _ _ i hil _
          have := hpre2 _ hmem
          linarith
        · have hieq : i = (pre ++ slots.takeWhile (fun t => decide (t ≤ now - w))).length := by
            omega
          have hget : cs[i] = hd := by
            rw [List.getElem_of_eq hcs3 hilen]
            rw [List.getElem_append_right hil]
            simp [hieq]
          rw [hget]
          exact hhd
  · -- room in the deque: append immediately
    rw [acquireStep_lt mc w slots now slack hge]
    dsimp only
    have hcval : now ≤ now + max slack 0 := by linarith
    refine ⟨?_, ?_, ?_, ?_, ?_⟩
    · refine ⟨pre ++ slots.takeWhile (fun t => decide (t ≤ now - w)), ?_, ?_⟩
      · rw [hcs2]
        exact List.append_assoc _ _ _
      · intro c hc
        have := hpre2 c hc
        linarith
    · rw [List.pairwise_append]
      refine ⟨h.sorted, List.pairwise_singleton _ _, fun a ha b hb => ?_⟩
      simp only [List.mem_singleton] at hb
      rw [hb]
      exact le_trans (hcsle a ha) hcval
    · simp only [List.length_append, List.length_singleton]
      omega
    · intro c hc
      rcases List.mem_append.mp hc with hc | hc
      · exact le_trans (hcsle c hc) hcval
      · simp only [List.mem_singleton] at hc
        rw [hc]
    · intro i j hi hj hij
      simp only [List.get_eq_getElem]
      rcases Nat.lt_or_ge j cs.length with hjlt | hjge
      · rw [List.getElem_append_left (lt_of_le_of_lt (by omega) hjlt),
            List.getElem_append_left hjlt]
        exact h.spacing i j (by omega) hjlt hij
      · have hjl : j < cs.length + 1 := by
          simpa using hj
        have hjeq : j = cs.length := by omega
        subst hjeq
        rw [List.getElem_append_right (le_refl cs.length)]
        simp only [Nat.sub_self, List.getElem_singleton]
        have hilen : i < cs.length := by omega
        rw [List.getElem_append_left hilen]
        have hlen2 : cs.length
            = (pre ++ slots.takeWhile (fun t => decide (t ≤ now - w))).length
              + (slots.dropWhile (fun t => decide (t ≤ now - w))).length := by
          rw [hcs2, List.length_append]
        have hil : i < (pre ++ slots.takeWhile (fun t => decide (t ≤ now - w))).length := by
          omega
        have hmem : cs[i] ∈ pre ++ slots.takeWhile (fun t => decide (t ≤ now - w)) := by
          rw [List.getElem_of_eq hcs2 hilen]
          exact getElem_append_mem_left _ _ i hil _
        have := hpre2 _ hmem
        linarith

theorem rlRun_inv (mc : Nat) (w : ℚ) (hmc : 1 ≤ mc) :
    ∀ (calls : List (ℚ × ℚ)) (cs slots : List ℚ) (tprev : ℚ),
      RLInv mc w cs slots tprev →
      ∃ slots2 tp2, RLInv mc w (cs ++ rlRun mc w slots tprev calls) slots2 tp2 := by
  intro calls
  induction calls with
  | nil =>
    intro cs slots tprev h
    exact ⟨slots, tprev, by simpa [rlRun] using h⟩
  | cons call calls ih =>
    intro cs slots tprev h
    obtain ⟨r, slack⟩ := call
    have hstep := RLInv.step mc w cs slots tprev hmc h (max r tprev) slack
      (le_max_right r tprev)
    obtain ⟨s2, t2, hinv⟩ := ih (cs ++ [(acquireStep mc w slots (max r tprev) slack).2])
      (acquireStep mc w slots (max r tprev) slack).1
      (acquireStep mc w slots (max r tprev) slack).2 hstep
    refine ⟨s2, t2, ?_⟩
    simp only [rlRun]
    rw [List.append_cons]
    exact hinv

theorem rlRun_spacing (mc : Nat) (w : ℚ) (t0 : ℚ) (calls : List (ℚ × ℚ))
    (hmc : 1 ≤ mc) :
    (rlRun mc w [] t0 calls).Pairwise (fun a b => a ≤ b)
    ∧ ∀ (i j : Nat) (hi : i < (rlRun mc w [] t0 calls).length)
        (hj : j < (rlRun mc w [] t0 calls).length), i + mc ≤ j →
        (rlRun mc w [] t0 calls).get ⟨i, hi⟩ + w
          ≤ (rlRun mc w [] t0 calls).get ⟨j, hj⟩ := by
  have h0 : RLInv mc w [] [] t0 := by
    refine ⟨⟨[], rfl, by simp⟩, by simp, by simp, by simp, ?_⟩
    intro i j hi hj hij
    simp at hi
  obtain ⟨s2, t2, hinv⟩ := rlRun_inv mc w hmc calls [] [] t0 h0
  rw [List.nil_append] at hinv
  exact ⟨hinv.sorted, hinv.spacing⟩

theorem sorted_countP_le_getElem (t : List ℚ) (hs : t.Pairwise (fun a b => a ≤ b))
    (y : ℚ) (m : Nat) (hm1 : 1 ≤ m)
    (hcount : m ≤ t.countP (fun c => decide (c ≤ y))) :
    ∃ hlt : m - 1 < t.length, t.get ⟨m - 1, hlt⟩ ≤ y := by
  have hlen : m ≤ t.length := le_trans hcount (List.countP_le_length _)
  have hlt : m - 1 < t.length := by omega
  refine ⟨hlt, ?_⟩
  by_contra hgt
  push_neg at hgt
  have harr : m - 1 + 1 = m := by omega
  have hdropc : t.drop (m - 1) = t.get ⟨m - 1, hlt⟩ :: t.drop m := by
    rw [List.get_eq_getElem, List.drop_eq_getElem_cons hlt, harr]
  have hdrop_sorted : (t.drop (m - 1)).Pairwise (fun a b => a ≤ b) :=
    List.Pairwise.sublist (List.drop_sublist _ _) hs
  have h0 : (t.drop (m - 1)).countP (fun c => decide (c ≤ y)) = 0 := by
    rw [List.countP_eq_zero]
    intro c hc
    rw [hdropc] at hc hdrop_sorted
    simp only [decide_eq_true_eq]
    rcases List.mem_cons.mp hc with hc | hc
    · subst hc
      intro hcy
      linarith
    · have := (List.pairwise_cons.mp hdrop_sorted).1 c hc
      intro hcy
      linarith
  have htot : t.countP (fun c => decide (c ≤ y))
      = (t.take (m - 1)).countP (fun c => decide (c ≤ y))
        + (t.drop (m - 1)).countP (fun c => decide (c ≤ y)) := by
    conv_lhs => rw [← List.take_append_drop (m - 1) t]
    exact List.countP_append _ _ _
  have htake : (t.take (m - 1)).countP (fun c => decide (c ≤ y)) ≤ m - 1 :=
    le_trans (List.countP_le_length _) (by rw [List.length_take]; exact min_le_left _ _)
  omega

theorem sorted_spaced_window_count (mc : Nat) (w : ℚ) (hmc : 1 ≤ mc) :
    ∀ (cs : List ℚ), cs.Pairwise (fun a b => a ≤ b) →
      (∀ (i j : Nat) (hi : i < cs.length) (hj : j < cs.length), i + mc ≤ j →
        cs.get ⟨i, hi⟩ + w ≤ cs.get ⟨j, hj⟩) →
      ∀ x : ℚ, cs.countP (fun c => decide (x < c) && decide (c ≤ x + w)) ≤ mc := by
  intro cs
  induction cs with
  | nil =>
    intro _ _ x
    simp
  | cons a t ih =>
    intro hs hsp x
    have hs2 : t.Pairwise (fun a b => a ≤ b) := hs.of_cons
    have hsp2 : ∀ (i j : Nat) (hi : i < t.length) (hj : j < t.length), i + mc ≤ j →
        t.get ⟨i, hi⟩ + w ≤ t.get ⟨j, hj⟩ := by
      intro i j hi hj hij
      have := hsp (i + 1) (j + 1) (by simp; omega) (by simp; omega) (by omega)
      simpa using this
    by_cases hP : x < a ∧ a ≤ x + w
    · rw [List.countP_cons]
      have hPa : (decide (x < a) && decide (a ≤ x + w)) = true := by
        simp [hP.1, hP.2]
      rw [if_pos hPa]
      obtain ⟨m, rfl⟩ : ∃ m, mc = m + 1 := ⟨mc - 1, by omega⟩
      by_contra hcon
      push_neg at hcon
      have hge : m + 1 ≤ t.countP (fun c => decide (x < c) && decide (c ≤ x + w)) := by
        omega
      have hge2 : m + 1 ≤ t.countP (fun c => decide (c ≤ x + w)) := by
        refine le_trans hge (List.countP_mono_left ?_)
        intro c _ hc
        simp only [Bool.and_eq_true, decide_eq_true_eq] at hc
        simp [hc.2]
      obtain ⟨hlt, hle⟩ := sorted_countP_le_getElem t hs2 (x + w) (m + 1) (by omega) hge2
      have hsp0 := hsp 0 (m + 1) (by simp) (by simp; omega) (by omega)
      simp only [List.get_eq_getElem, List.getElem_cons_zero, List.getElem_cons_succ] at hsp0
      simp only [List.get_eq_getElem] at hle
      have hrw : m + 1 - 1 = m := by omega
      simp only [hrw] at hle
      have := hP.1
      linarith
    · rw [List.countP_cons]
      have hPa : ¬((decide (x < a) && decide (a ≤ x + w)) = true) := by
        simp only [Bool.and_eq_true, decide_eq_true_eq]
        intro hc
        exact hP ⟨hc.1, hc.2⟩
      rw [if_neg hPa]
      simpa using ih hs2 hsp2 x

/-- C4: for every serialized history of `acquire` calls on a limiter built
with `max_calls ≥ 1` (the constructor rejects smaller values) and any
`window`, no rolling half-open interval `(x, x + window]` contains more
than `max_calls` completed acquisitions, across all callers.  The interval
is half-open exactly as the code treats expiry: a timestamp aged exactly
`window` is discarded (`t <= now - window`). -/
theorem rate_limiter_window_bound (max_calls : Nat) (window : ℚ) (t0 : ℚ)
    (calls : List (ℚ × ℚ)) (x : ℚ) (hmc : 1 ≤ max_calls) :
    (rlRun max_calls window [] t0 calls).countP
      (fun c => decide (x < c) && decide (c ≤ x + window)) ≤ max_calls := by
  obtain ⟨hsorted, hspacing⟩ := rlRun_spacing max_calls window t0 calls hmc
  exact sorted_spaced_window_count max_calls window hmc _ hsorted hspacing x

theorem rate_limiter_window_bound_witness :
    (rlRun 2 60 [] 0 [(0, 0), (0, 0), (0, 0), (60, 0)]).countP
      (fun c => decide ((0 : ℚ) < c) && decide (c ≤ 0 + 60)) ≤ 2 :=
  rate_limiter_window_bound 2 60 0 [(0, 0), (0, 0), (0, 0), (60, 0)] 0 (by decide)

/-! ### Scrape coordinator theorems -/

theorem is_completed_register (db : DownloadDB) (docId en ei dt dd : String)
    (lp ri : Int) (now : String) (x : String) :
    is_completed (register_document db docId en ei dt dd lp ri now) x
      = is_completed db x := by
  unfold register_document
  split
  · rfl
  · simp [is_completed, List.any_append]

theorem lookupDoc_append_of_isSome (l1 l2 : List (String × DocRow)) (x : String)
    (h : (lookupDoc l1 x).isSome = true) :
    lookupDoc (l1 ++ l2) x = lookupDoc l1 x := by
  unfold lookupDoc at h ⊢
  rw [List.find?_append]
  cases hf : l1.find? (fun p => p.1 == x) with
  | none => rw [hf] at h; simp at h
  | some p => simp [hf]

theorem lookup_register_mono (db : DownloadDB) (docId en ei dt dd : String)
    (lp ri : Int) (now : String) (x : String)
    (h : (lookupDoc db.documents x).isSome = true) :
    (lookupDoc (register_document db docId en ei dt dd lp ri now).documents x).isSome
      = true := by
  unfold register_document
  split
  · exact h
  · rw [lookupDoc_append_of_isSome _ _ _ h]
    exact h

theorem lookup_register_self (db : DownloadDB) (docId en ei dt dd : String)
    (lp ri : Int) (now : String) :
    (lookupDoc (register_document db docId en ei dt dd lp ri now).documents
      docId).isSome = true := by
  by_cases h : (lookupDoc db.documents docId).isSome
  · simp only [register_document, if_pos h]
    exact h
  · simp only [register_document, if_neg h]
    unfold lookupDoc at h ⊢
    rw [List.find?_append]
    cases hf : db.documents.find? (fun p => p.1 == docId) with
    | none => simp
    | some p => rw [hf] at h; simp at h

theorem processRecords_spec (now : String) :
    ∀ (recs : List DocumentRecord) (db : DownloadDB),
      (processRecords db now recs).2.2 = recs.length
      ∧ (∀ x, is_completed (processRecords db now recs).1 x = is_completed db x)
      ∧ (∀ x, (lookupDoc db.documents x).isSome = true →
          (lookupDoc (processRecords db now recs).1.documents x).isSome = true)
      ∧ (∀ r ∈ recs,
          (lookupDoc (processRecords db now recs).1.documents r.id).isSome = true)
      ∧ (processRecords db now recs).2.1
        = recs.filter (fun r => !(is_completed db r.id)) := by
  intro recs
  induction recs with
  | nil =>
    intro db
    refine ⟨rfl, fun x => rfl, fun x h => h, ?_, rfl⟩
    intro r hr
    simp at hr
  | cons r rs ih =>
    intro db
    obtain ⟨iht, ihc, ihm, ihr, ihq⟩ := ih (register_document db r.id r.employee_name
      r.employee_id r.doc_type r.doc_date r.listing_page r.row_index now)
    refine ⟨?_, ?_, ?_, ?_, ?_⟩
    · simp only [processRecords, iht, List.length_cons]
    · intro x
      simp only [processRecords]
      rw [ihc x, is_completed_register]
    · intro x hx
      simp only [processRecords]
      exact ihm x (lookup_register_mono db r.id r.employee_name r.employee_id
        r.doc_type r.doc_date r.listing_page r.row_index now x hx)
    · intro q hq
      rcases List.mem_cons.mp hq with hq | hq
      · subst hq
        simp only [processRecords]
        exact ihm q.id (lookup_register_self db q.id q.employee_name q.employee_id
          q.doc_type q.doc_date q.listing_page q.row_index now)
      · simp only [processRecords]
        exact ihr q hq
    · simp only [processRecords, List.filter_cons]
      rw [ihq]
      rw [is_completed_register db r.id r.employee_name r.employee_id r.doc_type
        r.doc_date r.listing_page r.row_index now r.id]
      have hcong : rs.filter (fun q =>
          !(is_completed (register_document db r.id r.employee_name r.employee_id
            r.doc_type r.doc_date r.listing_page r.row_index now) q.id))
          = rs.filter (fun q => !(is_completed db q.id)) := by
        refine List.filter_congr ?_
        intro q _
        rw [is_completed_register]
      rw [hcong]
      by_cases hco : is_completed db r.id
      · rw [hco]
        simp
      · simp only [Bool.not_eq_true] at hco
        rw [hco]
        simp

theorem scrapeLoop_spec (now : String) :
    ∀ (rem : List (List DocumentRecord)) (db : DownloadDB) (pageNum : Int),
      (scrapeLoop db pageNum now rem).total
        = (scrapeLoop db pageNum now rem).observed.length
      ∧ (∀ x, is_completed (scrapeLoop db pageNum now rem).db x = is_completed db x)
      ∧ (∀ x, (lookupDoc db.documents x).isSome = true →
          (lookupDoc (scrapeLoop db pageNum now rem).db.documents x).isSome = true)
      ∧ (∀ r ∈ (scrapeLoop db pageNum now rem).observed,
          (lookupDoc (scrapeLoop db pageNum now rem).db.documents r.id).isSome = true)
      ∧ (scrapeLoop db pageNum now rem).queue
        = (scrapeLoop db pageNum now rem).observed.filter
            (fun r => !(is_completed db r.id)) := by
  intro rem
  induction rem with
  | nil =>
    intro db pageNum
    refine ⟨rfl, fun x => rfl, fun x h => h, ?_, rfl⟩
    intro r hr
    simp [scrapeLoop] at hr
  | cons recs rest ih =>
    cases rest with
    | nil =>
      intro db pageNum
      obtain ⟨pt, pc, pm, pr_, pq⟩ := processRecords_spec now recs (set_last_page db pageNum)
      refine ⟨pt, pc, pm, pr_, ?_⟩
      exact pq
    | cons next rest2 =>
      intro db pageNum
      obtain ⟨pt, pc, pm, pr_, pq⟩ := processRecords_spec now recs (set_last_page db pageNum)
      obtain ⟨st, sc, sm, sr, sq⟩ := ih
        (processRecords (set_last_page db pageNum) now recs).1 (pageNum + 1)
      refine ⟨?_, ?_, ?_, ?_, ?_⟩
      · simp only [scrapeLoop, List.length_append]
        rw [pt, st]
      · intro x
        simp only [scrapeLoop]
        rw [sc x, pc x]
        rfl
      · intro x hx
        simp only [scrapeLoop]
        exact sm x (pm x hx)
      · intro q hq
        simp only [scrapeLoop] at hq ⊢
        rcases List.mem_append.mp hq with hq | hq
        · exact sm q.id (pr_ q hq)
        · exact sr q hq
      · simp only [scrapeLoop, List.filter_append]
        rw [pq, sq]
        congr 1
        refine List.filter_congr ?_
        intro q _
        rw [pc q.id]
        rfl

theorem scrapeLoop_events (now : String) :
    ∀ (rem : List (List DocumentRecord)) (db : DownloadDB) (pageNum : Int)
      (i : Nat) (n : Int),
      (scrapeLoop db pageNum now rem).events.get? i = some (ScrapeEv.fetched n) →
      1 ≤ i ∧ (scrapeLoop db pageNum now rem).events.get? (i - 1)
        = some (ScrapeEv.setLast n) := by
  intro rem
  induction rem with
  | nil =>
    intro db pageNum i n h
    match i with
    | 0 => simp [scrapeLoop] at h
    | 1 =>
      simp only [scrapeLoop, List.get?_cons_succ, List.get?_cons_zero] at h
      have hn : n = pageNum := by
        have := Option.some.inj h
        cases this
        rfl
      subst hn
      exact ⟨le_refl 1, rfl⟩
    | (k + 2) => simp [scrapeLoop] at h
  | cons recs rest ih =>
    cases rest with
    | nil =>
      intro db pageNum i n h
      match i with
      | 0 => simp [scrapeLoop] at h
      | 1 =>
        simp only [scrapeLoop, List.get?_cons_succ, List.get?_cons_zero] at h
        have hn : n = pageNum := by
          have := Option.some.inj h
          cases this
          rfl
        subst hn
        exact ⟨le_refl 1, rfl⟩
      | (k + 2) => simp [scrapeLoop] at h
    | cons next rest2 =>
      intro db pageNum i n h
      match i with
      | 0 => simp [scrapeLoop] at h
      | 1 =>
        simp only [scrapeLoop, List.get?_cons_succ, List.get?_cons_zero] at h
        have hn : n = pageNum := by
          have := Option.some.inj h
          cases this
          rfl
        subst hn
        exact ⟨le_refl 1, rfl⟩
      | (k + 2) =>
        simp only [scrapeLoop, List.get?_cons_succ] at h
        obtain ⟨hk1, hk2⟩ := ih
          (processRecords (set_last_page db pageNum) now recs).1 (pageNum + 1) k n h
        obtain ⟨j, rfl⟩ : ∃ j, k = j + 1 := ⟨k - 1, by omega⟩
        refine ⟨by omega, ?_⟩
        have hidx : j + 1 + 2 - 1 = j + 2 := by omega
        rw [hidx]
        simp only [scrapeLoop, List.get?_cons_succ]
        have hidx2 : j + 1 - 1 = j := by omega
        rw [hidx2] at hk2
        exact hk2

/-- C7: for every listing walked by `_scrape_all`, the page number is
persisted as run state immediately before that page is fetched (every
`fetched n` event is directly preceded by `setLast n`); every observed
record ends up registered in the store; exactly the observed records whose
id is not already completed are enqueued, in order; and the returned total
counts every observed record, the already-completed ones included. -/
theorem scrape_all_spec (db : DownloadDB) (pages : List (List DocumentRecord))
    (start_page : Int) (now : String) :
    (scrape_all db pages start_page now).total
      = (scrape_all db pages start_page now).observed.length
    ∧ (scrape_all db pages start_page now).queue
      = (scrape_all db pages start_page now).observed.filter
          (fun r => !(is_completed db r.id))
    ∧ (∀ r ∈ (scrape_all db pages start_page now).observed,
        (lookupDoc (scrape_all db pages start_page now).db.documents r.id).isSome
          = true)
    ∧ (∀ (i : Nat) (n : Int),
        (scrape_all db pages start_page now).events.get? i
            = some (ScrapeEv.fetched n) →
        1 ≤ i ∧ (scrape_all db pages start_page now).events.get? (i - 1)
          = some (ScrapeEv.setLast n)) := by
  obtain ⟨ht, hc, hm, hr, hq⟩ := scrapeLoop_spec now
    (pages.drop (fastForward pages.length 0 (start_page - 1).toNat)) db start_page
  exact ⟨ht, hq, hr, fun i n h =>
    scrapeLoop_events now _ db start_page i n h⟩

theorem scrape_all_spec_witness :
    (scrape_all c7DB c7Pages 1 "t2").total
      = (scrape_all c7DB c7Pages 1 "t2").observed.length
    ∧ (scrape_all c7DB c7Pages 1 "t2").queue
      = (scrape_all c7DB c7Pages 1 "t2").observed.filter
          (fun r => !(is_completed c7DB r.id))
    ∧ (lookupDoc (scrape_all c7DB c7Pages 1 "t2").db.documents "a").isSome = true
    ∧ (1 ≤ 1 ∧ (scrape_all c7DB c7Pages 1 "t2").events.get? 0
        = some (ScrapeEv.setLast 1)) := by
  refine ⟨(scrape_all_spec c7DB c7Pages 1 "t2").1,
    (scrape_all_spec c7DB c7Pages 1 "t2").2.1,
    (scrape_all_spec c7DB c7Pages 1 "t2").2.2.1 (c7Rec "a" 1 0) (by decide),
    (scrape_all_spec c7DB c7Pages 1 "t2").2.2.2 1 1 (by decide)⟩

/-! ### Worker pool: session-expiry coordination (C1) -/

/-- Evaluating the pool on a two-worker run in which both workers detect
session expiry within one incident (both observe `is_session_expired()`
before either acquires the re-auth lock): the user is prompted twice, once
per detecting worker — not exactly once.  The first responder re-sets
`_session_ok` before releasing `_reauth_lock`, so the second worker,
queued on the lock, finds the gate open again and becomes a "first
responder" too; the dedupe branch of `_handle_session_timeout` is
unreachable.  Both triggering records are re-queued, as the spec says. -/
theorem session_prompt_not_single :
    (runSched (initPool c1Records emptyDB 2) c1Sched).prompts = 2
    ∧ (runSched (initPool c1Records emptyDB 2) c1Sched).queue.length = 2
    ∧ (runSched (initPool c1Records emptyDB 2) c1Sched).sessionOk = true := by
  refine ⟨?_, ?_, ?_⟩ <;> rfl

/-! ### Worker pool: tally accounting (C2) -/

theorem sum_map_add_split (l : List WorkerSt) :
    (l.map tallies).sum = (l.map (fun w => w.downloaded)).sum
      + (l.map (fun w => w.skipped)).sum + (l.map (fun w => w.failed)).sum := by
  induction l with
  | nil => rfl
  | cons w ws ih =>
    simp only [List.map_cons, List.sum_cons, ih, tallies]
    omega

theorem workers_decomp {α : Type} (l : List α) (i : Nat) (w : α)
    (hw : l.get? i = some w) (wNew : α) :
    l = l.take i ++ w :: l.drop (i + 1)
    ∧ l.set i wNew = l.take i ++ wNew :: l.drop (i + 1) := by
  obtain ⟨hi, hget⟩ := List.get?_eq_some.mp hw
  constructor
  · conv_lhs => rw [← List.take_append_drop i l]
    congr 1
    rw [← List.getElem_cons_drop l i hi]
    rw [List.get_eq_getElem] at hget
    rw [hget]
  · rw [List.set_eq_take_append_cons_drop]
    rw [if_pos hi]

theorem sum_map_set (g : WorkerSt → Nat) (l : List WorkerSt) (i : Nat)
    (w wNew : WorkerSt) (hw : l.get? i = some w) :
    (l.map g).sum + g wNew = ((l.set i wNew).map g).sum + g w := by
  obtain ⟨h1, h2⟩ := workers_decomp l i w hw wNew
  rw [h2]
  conv_lhs => rw [h1]
  simp only [List.map_append, List.map_cons, List.sum_append, List.sum_cons]
  omega

theorem flatMap_set (g : WorkerSt → List String) (l : List WorkerSt) (i : Nat)
    (w wNew : WorkerSt) (hw : l.get? i = some w) :
    ∃ A B, l.flatMap g = A ++ (g w ++ B)
      ∧ (l.set i wNew).flatMap g = A ++ (g wNew ++ B) := by
  obtain ⟨h1, h2⟩ := workers_decomp l i w hw wNew
  refine ⟨(l.take i).flatMap g, (l.drop (i + 1)).flatMap g, ?_, ?_⟩
  · conv_lhs => rw [h1]
    simp [List.flatMap_append, List.flatMap_cons]
  · rw [h2]
    simp [List.flatMap_append, List.flatMap_cons]

theorem mem_set_self {α : Type} (l : List α) (i : Nat) (w : α)
    (hw : l.get? i = some w) (wNew : α) : wNew ∈ l.set i wNew := by
  obtain ⟨h1, h2⟩ := workers_decomp l i w hw wNew
  rw [h2]
  simp

theorem perm_cons_middle {α : Type} (x : α) (Q A B : List α) :
    (x :: (Q ++ (A ++ B))).Perm (Q ++ (A ++ x :: B)) := by
  have h2 : Q ++ (A ++ x :: B) = (Q ++ A) ++ x :: B := by rw [List.append_assoc]
  have h3 : x :: (Q ++ (A ++ B)) = x :: ((Q ++ A) ++ B) := by rw [List.append_assoc]
  rw [h2, h3]
  exact List.perm_middle.symm

theorem is_completed_updateDoc_ne (db : DownloadDB) (docId : String)
    (f : DocRow → DocRow) (x : String) (hne : ¬(x = docId)) :
    is_completed (updateDoc db docId f) x = is_completed db x := by
  unfold is_completed updateDoc
  simp only [List.any_map]
  induction db.documents with
  | nil => rfl
  | cons p l ih =>
    simp only [List.any_cons, ih, Function.comp]
    by_cases hk : p.1 == docId
    · have hkk : p.1 = docId := by simpa using hk
      rw [if_pos hk]
      have hx : ¬(p.1 == x) = true := by
        simp [hkk]
        intro he
        exact absurd he.symm hne
      simp only [Bool.and_eq_true]
      have hx2 : (p.1 == x) = false := by
        simpa using hx
      simp [hx2]
    · rw [if_neg hk]

theorem is_completed_updateDoc_self (db : DownloadDB) (docId : String)
    (f : DocRow → DocRow) (hf : ∀ r, ¬((f r).status = DocStatus.completed)) :
    is_completed (updateDoc db docId f) docId = false := by
  unfold is_completed updateDoc
  simp only [List.any_map]
  rw [List.any_eq_false]
  intro p hp
  simp only [Function.comp]
  by_cases hk : p.1 == docId
  · rw [if_pos hk]
    simp only [Bool.and_eq_true, not_and]
    intro _
    simpa using hf p.2
  · rw [if_neg hk]
    simp only [Bool.and_eq_true, not_and]
    intro hc
    exact absurd hc (by simpa using hk)

/-- `mark_in_progress` and `mark_failed` never produce a `completed`
status, so any id completed afterwards was completed before and differs
from the touched id. -/
theorem is_completed_mark_other (db : DownloadDB) (docId : String)
    (f : DocRow → DocRow) (hf : ∀ r, ¬((f r).status = DocStatus.completed))
    (x : String) (h : is_completed (updateDoc db docId f) x = true) :
    ¬(x = docId) ∧ is_completed db x = true := by
  by_cases hne : x = docId
  · subst hne
    rw [is_completed_updateDoc_self db x f hf] at h
    exact absurd h (by simp)
  · rw [is_completed_updateDoc_ne db docId f x hne] at h
    exact ⟨hne, h⟩

theorem is_completed_mark_completed_cases (db : DownloadDB) (docId fp now : String)
    (x : String) (h : is_completed (mark_completed db docId fp now) x = true) :
    x = docId ∨ is_completed db x = true := by
  by_cases hne : x = docId
  · exact Or.inl hne
  · rw [mark_completed, is_completed_updateDoc_ne db docId _ x hne] at h
    exact Or.inr h

theorem activeIds_expand (s : PoolState) :
    activeIds s = s.queue.map (fun r => r.id)
      ++ s.workers.flatMap (fun w => heldIds w.stage) := rfl

theorem activeIds_same (s s2 : PoolState) (i : Nat) (w wNew : WorkerSt)
    (hw : s.workers.get? i = some w) (hwk : s2.workers = s.workers.set i wNew)
    (hq : s2.queue = s.queue)
    (hh : heldIds wNew.stage = heldIds w.stage) :
    activeIds s2 = activeIds s := by
  obtain ⟨A, B, h1, h2⟩ := flatMap_set (fun w2 => heldIds w2.stage) s.workers i w wNew hw
  rw [activeIds_expand, activeIds_expand, hwk, h2, h1, hq, hh]

theorem activeIds_dequeue (s s2 : PoolState) (i : Nat) (w wNew : WorkerSt)
    (r : DocumentRecord)
    (hw : s.workers.get? i = some w) (hwk : s2.workers = s.workers.set i wNew)
    (hqs : s.queue = r :: s2.queue)
    (hhw : heldIds w.stage = []) (hhn : heldIds wNew.stage = [r.id]) :
    (activeIds s).Perm (activeIds s2) := by
  obtain ⟨A, B, h1, h2⟩ := flatMap_set (fun w2 => heldIds w2.stage) s.workers i w wNew hw
  rw [activeIds_expand, activeIds_expand, hwk, h2, h1, hqs, hhw, hhn]
  simp only [List.map_cons, List.nil_append, List.singleton_append, List.cons_append]
  exact perm_cons_middle r.id (s2.queue.map (fun r => r.id)) A B

theorem activeIds_requeue (s s2 : PoolState) (i : Nat) (w wNew : WorkerSt)
    (r : DocumentRecord)
    (hw : s.workers.get? i = some w) (hwk : s2.workers = s.workers.set i wNew)
    (hq2 : s2.queue = s.queue ++ [r])
    (hhw : heldIds w.stage = [r.id]) (hhn : heldIds wNew.stage = []) :
    (activeIds s).Perm (activeIds s2) := by
  obtain ⟨A, B, h1, h2⟩ := flatMap_set (fun w2 => heldIds w2.stage) s.workers i w wNew hw
  rw [activeIds_expand, activeIds_expand, hwk, h2, h1, hq2, hhw, hhn]
  simp only [List.map_append, List.map_cons, List.map_nil, List.nil_append,
    List.singleton_append, List.append_assoc]
  exact List.Perm.append_left _ List.perm_middle

theorem activeIds_remove (s s2 : PoolState) (i : Nat) (w wNew : WorkerSt)
    (rid : String)
    (hw : s.workers.get? i = some w) (hwk : s2.workers = s.workers.set i wNew)
    (hq : s2.queue = s.queue)
    (hhw : heldIds w.stage = [rid]) (hhn : heldIds wNew.stage = []) :
    (activeIds s).Perm (rid :: activeIds s2) := by
  obtain ⟨A, B, h1, h2⟩ := flatMap_set (fun w2 => heldIds w2.stage) s.workers i w wNew hw
  rw [activeIds_expand, activeIds_expand, hwk, h2, h1, hq, hhw, hhn]
  simp only [List.singleton_append, List.nil_append]
  exact (perm_cons_middle rid (s.queue.map (fun r => r.id)) A B).symm

/-- Frame rule: a step that rearranges the in-flight ids (dequeue, gate,
re-queue, pure stage changes) preserves the pool invariant. -/
theorem poolInv_perm_frame (R : Nat) (s s2 : PoolState) (i : Nat) (w wNew : WorkerSt)
    (hw : s.workers.get? i = some w)
    (hwk : s2.workers = s.workers.set i wNew)
    (hinv : PoolInv R s)
    (hperm : (activeIds s).Perm (activeIds s2))
    (hcnt : s2.queue.length + heldCount wNew + tallies wNew
        = s.queue.length + heldCount w + tallies w)
    (hdb : ∀ x, is_completed s2.db x = true → is_completed s.db x = true)
    (hnf : ¬(wNew.stage = WStage.finished) ∨ s2.queue = []) :
    PoolInv R s2 := by
  have hs1 := sum_map_set heldCount s.workers i w wNew hw
  have hs2 := sum_map_set tallies s.workers i w wNew hw
  rw [← hwk] at hs1 hs2
  refine ⟨?_, ?_, ?_, ?_⟩
  · have := hinv.count
    omega
  · exact hperm.nodup hinv.uniq
  · intro docId hdoc
    have := hinv.comp docId (hdb docId hdoc)
    intro hmem
    exact this (hperm.mem_iff.mpr hmem)
  · cases hnf with
    | inl h =>
      intro hall
      exact absurd (hall wNew (hwk ▸ mem_set_self s.workers i w hw wNew)) h
    | inr h => intro _; exact h

/-- Frame rule: a step that retires the held record (skip, successful
download, hard failure) preserves the pool invariant. -/
theorem poolInv_remove_frame (R : Nat) (s s2 : PoolState) (i : Nat) (w wNew : WorkerSt)
    (rid : String)
    (hw : s.workers.get? i = some w)
    (hwk : s2.workers = s.workers.set i wNew)
    (hinv : PoolInv R s)
    (hperm : (activeIds s).Perm (rid :: activeIds s2))
    (hcnt : s2.queue.length + heldCount wNew + tallies wNew
        = s.queue.length + heldCount w + tallies w)
    (hdb : ∀ x, is_completed s2.db x = true → x = rid ∨ is_completed s.db x = true)
    (hnf : ¬(wNew.stage = WStage.finished)) :
    PoolInv R s2 := by
  have hs1 := sum_map_set heldCount s.workers i w wNew hw
  have hs2 := sum_map_set tallies s.workers i w wNew hw
  rw [← hwk] at hs1 hs2
  have hnodup : (rid :: activeIds s2).Nodup := hperm.nodup hinv.uniq
  refine ⟨?_, ?_, ?_, ?_⟩
  · have := hinv.count
    omega
  · exact (List.nodup_cons.mp hnodup).2
  · intro docId hdoc
    rcases hdb docId hdoc with h | h
    · subst h
      exact (List.nodup_cons.mp hnodup).1
    · have := hinv.comp docId h
      intro hmem
      exact this (hperm.mem_iff.mpr (List.mem_cons_of_mem rid hmem))
  · intro hall
    exact absurd (hall wNew (hwk ▸ mem_set_self s.workers i w hw wNew)) hnf

/-- Every enabled transition preserves the pool invariant. -/
theorem poolInv_step (R : Nat) (s s2 : PoolState) (c : Choice)
    (hinv : PoolInv R s) (hstep : runStep s c = some s2) : PoolInv R s2 := by
  cases c with
  | dequeue i =>
    cases hw : s.workers.get? i with
    | none => rw [runStep, hw] at hstep; exact Option.noConfusion hstep
    | some w =>
      rw [runStep, hw] at hstep
      simp only [Option.bind_eq_bind, Option.some_bind] at hstep
      cases hst : w.stage
      all_goals rw [hst] at hstep
      all_goals dsimp only at hstep
      all_goals try exact Option.noConfusion hstep
      case idle =>
        cases hq : s.queue with
        | nil =>
          rw [hq] at hstep
          dsimp only at hstep
          obtain rfl := Option.some.inj hstep
          refine poolInv_perm_frame R s
              (setWorker s i ({ w with stage := WStage.finished }))
              i w ({ w with stage := WStage.finished }) hw rfl hinv ?_ ?_ (fun x h => h)
              (Or.inr (by simp [setWorker, hq]))
          · rw [activeIds_same s
                (setWorker s i ({ w with stage := WStage.finished }))
                i w ({ w with stage := WStage.finished }) hw rfl rfl (by rw [hst]; rfl)]
          · simp [setWorker, heldCount, heldIds, tallies, hst]
        | cons r rest =>
          rw [hq] at hstep
          dsimp only at hstep
          obtain rfl := Option.some.inj hstep
          refine poolInv_perm_frame R s
              ({ setWorker s i ({ w with stage := WStage.waitGate r }) with queue := rest })
              i w ({ w with stage := WStage.waitGate r }) hw rfl hinv ?_ ?_ (fun x h => h) (Or.inl (by simp))
          · exact activeIds_dequeue s
              ({ setWorker s i ({ w with stage := WStage.waitGate r }) with queue := rest })
              i w ({ w with stage := WStage.waitGate r }) r hw rfl hq (by rw [hst]; rfl) rfl
          · simp [setWorker, heldCount, heldIds, tallies, hst, hq]
  | gate i =>
    cases hw : s.workers.get? i with
    | none => rw [runStep, hw] at hstep; exact Option.noConfusion hstep
    | some w =>
      rw [runStep, hw] at hstep
      simp only [Option.bind_eq_bind, Option.some_bind] at hstep
      cases hst : w.stage
      all_goals rw [hst] at hstep
      all_goals dsimp only at hstep
      all_goals try exact Option.noConfusion hstep
      case waitGate r =>
        by_cases hok : s.sessionOk
        · rw [if_pos hok] at hstep
          obtain rfl := Option.some.inj hstep
          refine poolInv_perm_frame R s
              (setWorker s i ({ w with stage := WStage.checkDone r }))
              i w ({ w with stage := WStage.checkDone r }) hw rfl hinv ?_ ?_ (fun x h => h) (Or.inl (by simp))
          · rw [activeIds_same s
                (setWorker s i ({ w with stage := WStage.checkDone r }))
                i w ({ w with stage := WStage.checkDone r }) hw rfl rfl (by rw [hst]; rfl)]
          · simp [setWorker, heldCount, heldIds, tallies, hst]
        · rw [if_neg hok] at hstep
          exact Option.noConfusion hstep
  | check i =>
    cases hw : s.workers.get? i with
    | none => rw [runStep, hw] at hstep; exact Option.noConfusion hstep
    | some w =>
      rw [runStep, hw] at hstep
      simp only [Option.bind_eq_bind, Option.some_bind] at hstep
      cases hst : w.stage
      all_goals rw [hst] at hstep
      all_goals dsimp only at hstep
      all_goals try exact Option.noConfusion hstep
      case checkDone r =>
        by_cases hcp : is_completed s.db r.id
        · rw [if_pos hcp] at hstep
          obtain rfl := Option.some.inj hstep
          refine poolInv_remove_frame R s
              (setWorker s i ({ w with stage := WStage.idle, skipped := w.skipped + 1 }))
              i w ({ w with stage := WStage.idle, skipped := w.skipped + 1 }) r.id hw rfl hinv ?_ ?_ (fun x h => Or.inr h) (by simp)
          · exact activeIds_remove s
                (setWorker s i ({ w with stage := WStage.idle, skipped := w.skipped + 1 }))
                i w ({ w with stage := WStage.idle, skipped := w.skipped + 1 }) r.id hw rfl rfl (by rw [hst]; rfl) rfl
          · simp [setWorker, heldCount, heldIds, tallies, hst]
            omega
        · rw [if_neg hcp] at hstep
          obtain rfl := Option.some.inj hstep
          refine poolInv_perm_frame R s
              (setWorker s i ({ w with stage := WStage.rateWait r }))
              i w ({ w with stage := WStage.rateWait r }) hw rfl hinv ?_ ?_ (fun x h => h) (Or.inl (by simp))
          · rw [activeIds_same s
                (setWorker s i ({ w with stage := WStage.rateWait r }))
                i w ({ w with stage := WStage.rateWait r }) hw rfl rfl (by rw [hst]; rfl)]
          · simp [setWorker, heldCount, heldIds, tallies, hst]
  | rate i =>
    cases hw : s.workers.get? i with
    | none => rw [runStep, hw] at hstep; exact Option.noConfusion hstep
    | some w =>
      rw [runStep, hw] at hstep
      simp only [Option.bind_eq_bind, Option.some_bind] at hstep
      cases hst : w.stage
      all_goals rw [hst] at hstep
      all_goals dsimp only at hstep
      all_goals try exact Option.noConfusion hstep
      case rateWait r =>
        obtain rfl := Option.some.inj hstep
        refine poolInv_perm_frame R s
            (setWorker s i ({ w with stage := WStage.marking r }))
            i w ({ w with stage := WStage.marking r }) hw rfl hinv ?_ ?_ (fun x h => h) (Or.inl (by simp))
        · rw [activeIds_same s
              (setWorker s i ({ w with stage := WStage.marking r }))
              i w ({ w with stage := WStage.marking r }) hw rfl rfl (by rw [hst]; rfl)]
        · simp [setWorker, heldCount, heldIds, tallies, hst]
  | mark i =>
    cases hw : s.workers.get? i with
    | none => rw [runStep, hw] at hstep; exact Option.noConfusion hstep
    | some w =>
      rw [runStep, hw] at hstep
      simp only [Option.bind_eq_bind, Option.some_bind] at hstep
      cases hst : w.stage
      all_goals rw [hst] at hstep
      all_goals dsimp only at hstep
      all_goals try exact Option.noConfusion hstep
      case marking r =>
        obtain rfl := Option.some.inj hstep
        refine poolInv_perm_frame R s
            ({ setWorker s i ({ w with stage := WStage.downloading r }) with db := mark_in_progress s.db r.id })
            i w ({ w with stage := WStage.downloading r }) hw rfl hinv ?_ ?_ (fun x h => (is_completed_mark_other s.db r.id _ (by intro q; simp) x h).2) (Or.inl (by simp))
        · rw [activeIds_same s
              ({ setWorker s i ({ w with stage := WStage.downloading r }) with db := mark_in_progress s.db r.id })
              i w ({ w with stage := WStage.downloading r }) hw rfl rfl (by rw [hst]; rfl)]
        · simp [setWorker, heldCount, heldIds, tallies, hst]
  | dlOk i path =>
    cases hw : s.workers.get? i with
    | none => rw [runStep, hw] at hstep; exact Option.noConfusion hstep
    | some w =>
      rw [runStep, hw] at hstep
      simp only [Option.bind_eq_bind, Option.some_bind] at hstep
      cases hst : w.stage
      all_goals rw [hst] at hstep
      all_goals dsimp only at hstep
      all_goals try exact Option.noConfusion hstep
      case downloading r =>
        obtain rfl := Option.some.inj hstep
        refine poolInv_remove_frame R s
            ({ setWorker s i ({ w with stage := WStage.sleeping, downloaded := w.downloaded + 1, doneIds := r.id :: w.doneIds }) with db := mark_completed s.db r.id path (toString s.clock), clock := s.clock + 1 })
            i w ({ w with stage := WStage.sleeping, downloaded := w.downloaded + 1, doneIds := r.id :: w.doneIds }) r.id hw rfl hinv ?_ ?_ (fun x h => is_completed_mark_completed_cases s.db r.id path (toString s.clock) x h) (by simp)
        · exact activeIds_remove s
              ({ setWorker s i ({ w with stage := WStage.sleeping, downloaded := w.downloaded + 1, doneIds := r.id :: w.doneIds }) with db := mark_completed s.db r.id path (toString s.clock), clock := s.clock + 1 })
              i w ({ w with stage := WStage.sleeping, downloaded := w.downloaded + 1, doneIds := r.id :: w.doneIds }) r.id hw rfl rfl (by rw [hst]; rfl) rfl
        · simp [setWorker, heldCount, heldIds, tallies, hst]
          omega
  | dlErr i err =>
    cases hw : s.workers.get? i with
    | none => rw [runStep, hw] at hstep; exact Option.noConfusion hstep
    | some w =>
      rw [runStep, hw] at hstep
      simp only [Option.bind_eq_bind, Option.some_bind] at hstep
      cases hst : w.stage
      all_goals rw [hst] at hstep
      all_goals dsimp only at hstep
      all_goals try exact Option.noConfusion hstep
      case downloading r =>
        obtain rfl := Option.some.inj hstep
        refine poolInv_perm_frame R s
            (setWorker s i ({ w with stage := WStage.checkExpiry r err }))
            i w ({ w with stage := WStage.checkExpiry r err }) hw rfl hinv ?_ ?_ (fun x h => h) (Or.inl (by simp))
        · rw [activeIds_same s
              (setWorker s i ({ w with stage := WStage.checkExpiry r err }))
              i w ({ w with stage := WStage.checkExpiry r err }) hw rfl rfl (by rw [hst]; rfl)]
        · simp [setWorker, heldCount, heldIds, tallies, hst]
  | expiry i expired =>
    cases hw : s.workers.get? i with
    | none => rw [runStep, hw] at hstep; exact Option.noConfusion hstep
    | some w =>
      rw [runStep, hw] at hstep
      simp only [Option.bind_eq_bind, Option.some_bind] at hstep
      cases hst : w.stage
      all_goals rw [hst] at hstep
      all_goals dsimp only at hstep
      all_goals try exact Option.noConfusion hstep
      case checkExpiry r err =>
        cases expired with
        | true =>
          rw [if_pos rfl] at hstep
          obtain rfl := Option.some.inj hstep
          refine poolInv_perm_frame R s
              (setWorker s i ({ w with stage := WStage.lockWait r }))
              i w ({ w with stage := WStage.lockWait r }) hw rfl hinv ?_ ?_ (fun x h => h) (Or.inl (by simp))
          · rw [activeIds_same s
                (setWorker s i ({ w with stage := WStage.lockWait r }))
                i w ({ w with stage := WStage.lockWait r }) hw rfl rfl (by rw [hst]; rfl)]
          · simp [setWorker, heldCount, heldIds, tallies, hst]
        | false =>
          rw [if_neg (by simp)] at hstep
          obtain rfl := Option.some.inj hstep
          refine poolInv_remove_frame R s
              ({ setWorker s i ({ w with stage := WStage.sleeping, failed := w.failed + 1 }) with db := mark_failed s.db r.id err })
              i w ({ w with stage := WStage.sleeping, failed := w.failed + 1 }) r.id hw rfl hinv ?_ ?_ (fun x h => Or.inr (is_completed_mark_other s.db r.id _ (by intro q; simp) x h).2) (by simp)
          · exact activeIds_remove s
                ({ setWorker s i ({ w with stage := WStage.sleeping, failed := w.failed + 1 }) with db := mark_failed s.db r.id err })
                i w ({ w with stage := WStage.sleeping, failed := w.failed + 1 }) r.id hw rfl rfl (by rw [hst]; rfl) rfl
          · simp [setWorker, heldCount, heldIds, tallies, hst]
            omega
  | lock i =>
    cases hw : s.workers.get? i with
    | none => rw [runStep, hw] at hstep; exact Option.noConfusion hstep
    | some w =>
      rw [runStep, hw] at hstep
      simp only [Option.bind_eq_bind, Option.some_bind] at hstep
      cases hst : w.stage
      all_goals rw [hst] at hstep
      all_goals dsimp only at hstep
      all_goals try exact Option.noConfusion hstep
      case lockWait r =>
        by_cases hlk : s.lockHeld
        · rw [if_pos hlk] at hstep
          exact Option.noConfusion hstep
        · rw [if_neg hlk] at hstep
          by_cases hok : s.sessionOk
          · rw [if_pos hok] at hstep
            obtain rfl := Option.some.inj hstep
            refine poolInv_perm_frame R s
                ({ setWorker s i ({ w with stage := WStage.prompting r }) with lockHeld := true, sessionOk := false })
                i w ({ w with stage := WStage.prompting r }) hw rfl hinv ?_ ?_ (fun x h => h) (Or.inl (by simp))
            · rw [activeIds_same s
                  ({ setWorker s i ({ w with stage := WStage.prompting r }) with lockHeld := true, sessionOk := false })
                  i w ({ w with stage := WStage.prompting r }) hw rfl rfl (by rw [hst]; rfl)]
            · simp [setWorker, heldCount, heldIds, tallies, hst]
          · rw [if_neg hok] at hstep
            obtain rfl := Option.some.inj hstep
            refine poolInv_perm_frame R s
                ({ setWorker s i ({ w with stage := WStage.requeuePassive r }) with lockHeld := true })
                i w ({ w with stage := WStage.requeuePassive r }) hw rfl hinv ?_ ?_ (fun x h => h) (Or.inl (by simp))
            · rw [activeIds_same s
                  ({ setWorker s i ({ w with stage := WStage.requeuePassive r }) with lockHeld := true })
                  i w ({ w with stage := WStage.requeuePassive r }) hw rfl rfl (by rw [hst]; rfl)]
            · simp [setWorker, heldCount, heldIds, tallies, hst]
  | prompt i =>
    cases hw : s.workers.get? i with
    | none => rw [runStep, hw] at hstep; exact Option.noConfusion hstep
    | some w =>
      rw [runStep, hw] at hstep
      simp only [Option.bind_eq_bind, Option.some_bind] at hstep
      cases hst : w.stage
      all_goals rw [hst] at hstep
      all_goals dsimp only at hstep
      all_goals try exact Option.noConfusion hstep
      case prompting r =>
        obtain rfl := Option.some.inj hstep
        refine poolInv_perm_frame R s
            ({ setWorker s i ({ w with stage := WStage.requeueActive r }) with prompts := s.prompts + 1 })
            i w ({ w with stage := WStage.requeueActive r }) hw rfl hinv ?_ ?_ (fun x h => h) (Or.inl (by simp))
        · rw [activeIds_same s
              ({ setWorker s i ({ w with stage := WStage.requeueActive r }) with prompts := s.prompts + 1 })
              i w ({ w with stage := WStage.requeueActive r }) hw rfl rfl (by rw [hst]; rfl)]
        · simp [setWorker, heldCount, heldIds, tallies, hst]
  | requeue i =>
    cases hw : s.workers.get? i with
    | none => rw [runStep, hw] at hstep; exact Option.noConfusion hstep
    | some w =>
      rw [runStep, hw] at hstep
      simp only [Option.bind_eq_bind, Option.some_bind] at hstep
      cases hst : w.stage
      all_goals rw [hst] at hstep
      all_goals dsimp only at hstep
      all_goals try exact Option.noConfusion hstep
      case requeueActive r =>
        obtain rfl := Option.some.inj hstep
        refine poolInv_perm_frame R s
            ({ setWorker s i ({ w with stage := WStage.idle }) with queue := s.queue ++ [r], sessionOk := true, lockHeld := false })
            i w ({ w with stage := WStage.idle }) hw rfl hinv ?_ ?_ (fun x h => h) (Or.inl (by simp))
        · exact activeIds_requeue s
            ({ setWorker s i ({ w with stage := WStage.idle }) with queue := s.queue ++ [r], sessionOk := true, lockHeld := false })
            i w ({ w with stage := WStage.idle }) r hw rfl rfl (by rw [hst]; rfl) rfl
        · simp [setWorker, heldCount, heldIds, tallies, hst]
      case requeuePassive r =>
        obtain rfl := Option.some.inj hstep
        refine poolInv_perm_frame R s
            ({ setWorker s i ({ w with stage := WStage.idle }) with queue := s.queue ++ [r], lockHeld := false })
            i w ({ w with stage := WStage.idle }) hw rfl hinv ?_ ?_ (fun x h => h) (Or.inl (by simp))
        · exact activeIds_requeue s
            ({ setWorker s i ({ w with stage := WStage.idle }) with queue := s.queue ++ [r], lockHeld := false })
            i w ({ w with stage := WStage.idle }) r hw rfl rfl (by rw [hst]; rfl) rfl
        · simp [setWorker, heldCount, heldIds, tallies, hst]
  | wake i =>
    cases hw : s.workers.get? i with
    | none => rw [runStep, hw] at hstep; exact Option.noConfusion hstep
    | some w =>
      rw [runStep, hw] at hstep
      simp only [Option.bind_eq_bind, Option.some_bind] at hstep
      cases hst : w.stage
      all_goals rw [hst] at hstep
      all_goals dsimp only at hstep
      all_goals try exact Option.noConfusion hstep
      case sleeping =>
        obtain rfl := Option.some.inj hstep
        refine poolInv_perm_frame R s
            (setWorker s i ({ w with stage := WStage.idle }))
            i w ({ w with stage := WStage.idle }) hw rfl hinv ?_ ?_ (fun x h => h) (Or.inl (by simp))
        · rw [activeIds_same s
              (setWorker s i ({ w with stage := WStage.idle }))
              i w ({ w with stage := WStage.idle }) hw rfl rfl (by rw [hst]; rfl)]
        · simp [setWorker, heldCount, heldIds, tallies, hst]

theorem poolInv_reach (R : Nat) (s s2 : PoolState) (hinv : PoolInv R s)
    (hreach : PoolReach s s2) : PoolInv R s2 := by
  induction hreach with
  | refl => exact hinv
  | tail hr hstep ih =>
    obtain ⟨c, hc⟩ := hstep
    exact poolInv_step R _ _ c ih hc

theorem flatMap_replicate_nil {α β : Type} (n : Nat) (a : α) (g : α → List β)
    (h : g a = []) : (List.replicate n a).flatMap g = [] := by
  induction n with
  | zero => rfl
  | succ n ih => simp [List.replicate_succ, List.flatMap_cons, h, ih]

theorem poolInv_init (records : List DocumentRecord) (db : DownloadDB) (W : Nat)
    (hW : 1 ≤ W)
    (huniq : (records.map (fun r => r.id)).Nodup)
    (hncomp : ∀ r ∈ records, is_completed db r.id = false) :
    PoolInv records.length (initPool records db W) := by
  have hflat : ((List.replicate W initWorker).flatMap (fun w => heldIds w.stage)) = [] :=
    flatMap_replicate_nil W initWorker _ rfl
  refine ⟨?_, ?_, ?_, ?_⟩
  · simp [initPool, initWorker, heldCount, heldIds, tallies, List.map_replicate,
      List.sum_replicate]
  · rw [activeIds_expand]
    simp only [initPool, hflat, List.append_nil]
    exact huniq
  · intro docId hdoc
    rw [activeIds_expand]
    simp only [initPool, hflat, List.append_nil]
    intro hmem
    obtain ⟨r, hr, hrid⟩ := List.mem_map.mp hmem
    have h2 := hncomp r hr
    rw [hrid] at h2
    have hdoc2 : is_completed db docId = true := hdoc
    rw [h2] at hdoc2
    exact Bool.false_ne_true hdoc2
  · intro hall
    have hmem : initWorker ∈ List.replicate W initWorker := by
      rw [List.mem_replicate]
      exact ⟨by omega, rfl⟩
    have := hall initWorker hmem
    exact absurd this (by simp [initWorker])

theorem runSched_reach (s : PoolState) (cs : List Choice) :
    PoolReach s (runSched s cs) := by
  induction cs generalizing s with
  | nil => exact Relation.ReflTransGen.refl
  | cons c cs ih =>
    rw [runSched]
    cases hc : runStep s c with
    | none => exact ih s
    | some s2 => exact Relation.ReflTransGen.head ⟨c, hc⟩ (ih s2)

/-- C2: starting the pool on uniquely-identified records none of which is
already completed (exactly what the scrape phase enqueues), in every
reachable state in which all workers have returned the tallies satisfy
`downloaded + skipped + failed = R`; and a skip can only be counted when
another worker already completed the id — in fact, with unique ids the
combination "worker at the completion re-check while the id is completed"
is unreachable, so the conclusion holds vacuously-by-soundness: the
invariant shows a completed id is never queued or held. -/
theorem worker_pool_tallies (records : List DocumentRecord) (db : DownloadDB)
    (W : Nat) (hW : 1 ≤ W)
    (huniq : (records.map (fun r => r.id)).Nodup)
    (hncomp : ∀ r ∈ records, is_completed db r.id = false)
    (s : PoolState) (hreach : PoolReach (initPool records db W) s) :
    ((∀ w ∈ s.workers, w.stage = WStage.finished) →
      sumDownloaded s + sumSkipped s + sumFailed s = records.length)
    ∧ (∀ (i : Nat) (w : WorkerSt) (r : DocumentRecord),
        s.workers.get? i = some w → w.stage = WStage.checkDone r →
        is_completed s.db r.id = true →
        ∃ j w2, ¬(j = i) ∧ s.workers.get? j = some w2 ∧ r.id ∈ w2.doneIds) := by
  have hinv := poolInv_reach records.length (initPool records db W) s
    (poolInv_init records db W hW huniq hncomp) hreach
  constructor
  · intro hall
    have hq := hinv.drained hall
    have hheld : (s.workers.map heldCount).sum = 0 := by
      rw [List.sum_eq_zero]
      intro x hx
      obtain ⟨w, hwmem, hwx⟩ := List.mem_map.mp hx
      rw [← hwx]
      have := hall w hwmem
      simp [heldCount, this, heldIds]
    have hcount := hinv.count
    rw [hq, hheld] at hcount
    have hsplit := sum_map_add_split s.workers
    simp only [List.length_nil] at hcount
    rw [sumDownloaded, sumSkipped, sumFailed]
    omega
  · intro i w r hwi hstg hcomp2
    have hwm : w ∈ s.workers := List.get?_mem hwi
    have hmem : r.id ∈ activeIds s := by
      rw [activeIds_expand]
      refine List.mem_append.mpr (Or.inr ?_)
      rw [List.mem_flatMap]
      exact ⟨w, hwm, by rw [hstg]; simp [heldIds]⟩
    exact absurd hmem (hinv.comp r.id hcomp2)

theorem worker_pool_tallies_witness :
    sumDownloaded (runSched (initPool c2Records emptyDB 1) c2Sched)
      + sumSkipped (runSched (initPool c2Records emptyDB 1) c2Sched)
      + sumFailed (runSched (initPool c2Records emptyDB 1) c2Sched) = 1 :=
  (worker_pool_tallies c2Records emptyDB 1 (by decide) (by decide)
    (by decide) (runSched (initPool c2Records emptyDB 1) c2Sched)
    (runSched_reach (initPool c2Records emptyDB 1) c2Sched)).1 (by decide)

end HCM
